import Mathlib

/-!
Verification development for the ddelta-rs binary delta library
(`src/diff.rs` and `src/patch.rs`).

The source is shallowly embedded: byte buffers are `List Byte` with
`Byte := Fin 256` (so Rust's wrapping byte arithmetic is the group
arithmetic of `Fin 256`), `usize`/`isize` counters become `Nat`/`Int`,
and every loop becomes a structurally recursive function on an explicit
fuel argument (taken large enough at each call site, and universally
quantified in the theorems).  Fallible operations return `Except` /
`Option`.  Indexing uses `List.getD` with default `0`: the source
indexes slices directly and the generator's invariants keep every such
index in bounds (a negative or out-of-range index would panic in Rust).

The patch *stream* is modelled in two layers, exactly mirroring the
source: the generator produces structured entry records (the arguments
of each `write_all` call in `diff.rs`), and `serializeSubPatch` lays
them out as the little-endian byte stream the source writes; the
appliers (`patch.rs`) consume the raw byte stream.
-/

namespace DDelta

/-- A byte; Rust `u8` with wrapping arithmetic. -/
abbrev Byte := Fin 256

/-- Read a byte at a (semantically nonnegative) `Int` index.  The source
indexes the slice directly; a negative index would panic there, and the
generator invariants proved below keep the used indices nonnegative. -/
def getI (l : List Byte) (i : Int) : Byte :=
  l.getD i.toNat 0

/-- Lexicographic comparison of two byte lists (Rust's `[u8]::cmp`,
only ever applied to slices of equal length here). -/
def listCmp : List Byte → List Byte → Ordering
  | [], [] => .eq
  | [], _ :: _ => .lt
  | _ :: _, [] => .gt
  | a :: as, b :: bs => if a < b then .lt else if b < a then .gt else listCmp as bs

/-- `match_len` from `src/diff.rs`: length of the common prefix,
written as the source's iterator chain
`zip → enumerate → take_while(eq) → last → map_or(0, i+1)`. -/
def match_len (a b : List Byte) : Nat :=
  match ((a.zip b).enum.takeWhile fun p => p.2.1 == p.2.2).getLast? with
  | none => 0
  | some p => p.1 + 1

/-- The core of `match_len` with an explicit enumeration start, used to
reason about the iterator chain by induction. -/
def mlAux (n : Nat) (l : List (Byte × Byte)) : Nat :=
  match ((l.enumFrom n).takeWhile fun q => q.2.1 == q.2.2).getLast? with
  | none => 0
  | some p => p.1 + 1

/-- Recursive restatement of the longest-common-prefix length, used to
reason about `match_len`. -/
def lcp : List Byte → List Byte → Nat
  | a :: as, b :: bs => if a = b then lcp as bs + 1 else 0
  | _, _ => 0

/-- `min_memcmp` from `src/diff.rs`: compare the common-length prefixes. -/
def min_memcmp (a b : List Byte) : Ordering :=
  let len := min a.length b.length
  listCmp (a.take len) (b.take len)

/-- `search` from `src/diff.rs`, on fuel (the interval `en - st` shrinks
at every step, so fuel `en - st + 1` suffices; the fuel-0 branch is
unreachable at the call sites used here).  Returns `(length, pos)`
instead of writing through the out-parameter `*pos`. -/
def searchGo (sorted : List Nat) (old new : List Byte) :
    Nat → Nat → Nat → Nat × Nat
  | 0, st, _en =>
    (match_len (old.drop (sorted.getD st 0)) new, sorted.getD st 0)
  | fuel + 1, st, en =>
    if en - st < 2 then
      let x := match_len (old.drop (sorted.getD st 0)) new
      let y := match_len (old.drop (sorted.getD en 0)) new
      if x > y then (x, sorted.getD st 0) else (y, sorted.getD en 0)
    else
      let mid := st + (en - st) / 2
      if min_memcmp (old.drop (sorted.getD mid 0)) new ≠ Ordering.gt then
        searchGo sorted old new fuel mid en
      else
        searchGo sorted old new fuel st mid

/-- `search` with enough fuel for its interval. -/
def search (sorted : List Nat) (old new : List Byte) (st en : Nat) : Nat × Nat :=
  searchGo sorted old new (en - st + 1) st en

/-- Insert a position into a list sorted by suffix order. -/
def insertSuffix (old : List Byte) (i : Nat) : List Nat → List Nat
  | [] => [i]
  | j :: js =>
    if listCmp (old.drop i) (old.drop j) ≠ Ordering.gt then i :: j :: js
    else j :: insertSuffix old i js

/-- Sort suffix positions lexicographically (insertion sort). -/
def sortSuffixes (old : List Byte) : List Nat → List Nat
  | [] => []
  | i :: is => insertSuffix old i (sortSuffixes old is)

/-- Modelled from the spec: §4.1's suffix-array contract (the
`divsufsort` crate that computes it in `src/diff.rs` is an external
collaborator): the positions `0..|O|` sorted lexicographically by
suffix.  The trailing sentinel `0` is pushed by the source itself
(`sorted.push(0)` in `generate`). -/
def suffixList (old : List Byte) : List Nat :=
  sortSuffixes old (List.range old.length) ++ [0]

/-- The exact `search` call made by `generate`'s scanning loop: the old
buffer is truncated by its final byte
(`&old[..old.len().wrapping_sub(1).min(old.len())]`, which is `|O| - 1`
for nonempty `old` and `0` for empty `old` — the same as truncated
subtraction), and the interval is `[0, |O|]` over the suffix list. -/
def searchStep (old new : List Byte) (scan : Nat) : Nat × Nat :=
  search (suffixList old) (old.take (old.length - 1)) (new.drop scan) 0 old.length

/-! ## The scanning loop of `generate` (src/diff.rs lines 146-210) -/

/-- The guarded byte comparison used when scoring the previous offset:
`(j + lastoffset < old.len()) && (old[j + lastoffset] == new[j])`.
(The source would panic for a negative index; invariants keep
`j + lastoffset ≥ 0` wherever this matters, see the lemmas below.) -/
def matchAt (old new : List Byte) (off : Int) (j : Nat) : Bool :=
  ((j : Int) + off < (old.length : Int)) && (getI old ((j : Int) + off) == new.getD j 0)

/-- The `while scsc < scan + len` accumulation loop: add one for every
position in `[scsc, bound)` that still matches at the previous offset.
Fuel `bound - scsc` is exact.  Returns the new `(oldscore, scsc)`. -/
def accumGo (old new : List Byte) (off : Int) :
    Nat → Nat → Nat → Int → Int × Nat
  | 0, scsc, _bound, oldscore => (oldscore, scsc)
  | fuel + 1, scsc, bound, oldscore =>
    if scsc < bound then
      accumGo old new off fuel (scsc + 1) bound
        (if matchAt old new off scsc then oldscore + 1 else oldscore)
    else (oldscore, scsc)

/-- The pathology ("stuck") detector condition of src/diff.rs lines
191-199, with `FUZZ = 8`; all comparisons are `isize` comparisons. -/
def fuzzHeld (prevLen len : Nat) (prevOs os : Int) (prevPos pos : Nat) : Bool :=
  decide ((prevLen : Int) - 8 ≤ (len : Int)) && decide ((len : Int) ≤ (prevLen : Int)) &&
  decide (prevOs - 8 ≤ os) && decide (os ≤ prevOs) &&
  decide (prevPos ≤ pos) && decide (pos ≤ prevPos + 8) &&
  decide (os ≤ (len : Int)) && decide ((len : Int) ≤ os + 8)

/-- Result of one iteration of the inner extension loop: break with a
meaningful new match (the accept condition), break out of a stuck
near-identical block, or advance `scan` by one. -/
inductive StepRes where
  | brkAccept (len pos : Nat) (os : Int) (scsc : Nat)
  | brkStuck (len pos : Nat) (os : Int) (scsc : Nat)
  | advance (len pos : Nat) (os : Int) (scsc num : Nat)
  deriving DecidableEq

/-- One iteration of the inner extension loop body (src/diff.rs lines
155-209), for a given `scan < |new|`: search, accumulate `oldscore`,
test the accept condition, otherwise drop the leaving byte's score,
update the stuck counter and decide whether to break or advance. -/
def innerStep (old new : List Byte) (off : Int) (scan len pos : Nat)
    (oldscore : Int) (scsc num : Nat) : StepRes :=
  let lp := searchStep old new scan
  let len' := lp.1
  let pos' := lp.2
  let acc := accumGo old new off (scan + len' - scsc) scsc (scan + len') oldscore
  let os1 := acc.1
  let scsc' := acc.2
  if ((len' : Int) = os1 ∧ len' ≠ 0) ∨ (len' : Int) > os1 + 8 then
    .brkAccept len' pos' os1 scsc'
  else
    let os2 := if matchAt old new off scan then os1 - 1 else os1
    let num' := if fuzzHeld len len' oldscore os2 pos pos' then num + 1 else 0
    if num' > 100 then .brkStuck len' pos' os2 scsc'
    else .advance len' pos' os2 scsc' num'

/-- How the inner extension loop exited: via the accept condition, via
the stuck escape, or because `scan` reached `|new|` (including the case
where it was already there on entry). -/
inductive InnerExit where
  | accept (scan len pos : Nat) (os : Int) (scsc : Nat)
  | stuck (scan len pos : Nat) (os : Int) (scsc : Nat)
  | done (scan len pos : Nat) (os : Int) (scsc : Nat)
  deriving DecidableEq

/-- The state `(scan, len, pos, oldscore)` an exit carries into the
emission step. -/
def InnerExit.fields : InnerExit → Nat × Nat × Nat × Int
  | .accept s l p o _ => (s, l, p, o)
  | .stuck s l p o _ => (s, l, p, o)
  | .done s l p o _ => (s, l, p, o)

/-- The inner extension loop (`while scan < new.len()`), on fuel; the
caller supplies fuel `|new| - scan + 1`, which is exact since `scan`
increases by one per iteration. -/
def innerLoop (old new : List Byte) (off : Int) :
    Nat → Nat → Nat → Nat → Int → Nat → Nat → InnerExit
  | 0, scan, len, pos, os, scsc, _num => .done scan len pos os scsc
  | fuel + 1, scan, len, pos, os, scsc, num =>
    if scan < new.length then
      match innerStep old new off scan len pos os scsc num with
      | .brkAccept l p o sc => .accept scan l p o sc
      | .brkStuck l p o sc => .stuck scan l p o sc
      | .advance l p o sc n => innerLoop old new off fuel (scan + 1) l p o sc n
    else .done scan len pos os scsc

/-! ## Emission: extension, overlap resolution, record output
(src/diff.rs lines 212-290) -/

/-- One entry of the patch stream as the generator writes it: the three
header fields of an `EntryHeader` plus the two payloads that follow it
on the wire. -/
structure EntryRec where
  diff : Nat
  extra : Nat
  seek : Int
  diffPayload : List Byte
  extraPayload : List Byte
  deriving DecidableEq

/-- The all-zero terminator entry written by `write_ending`. -/
def endingRecord : EntryRec := ⟨0, 0, 0, [], []⟩

/-- An entry record with `diff = extra = seek = 0` (what the applier
treats as the terminator). -/
def isZeroRec (r : EntryRec) : Prop := r.diff = 0 ∧ r.extra = 0 ∧ r.seek = 0

instance (r : EntryRec) : Decidable (isZeroRec r) := by
  unfold isZeroRec; infer_instance

/-- `DiffError` from src/diff.rs (the `Io` variant cannot arise for the
in-memory streams modelled here). -/
inductive DiffError where
  | internal (msg : String)
  deriving DecidableEq

/-- The forward extension loop (src/diff.rs lines 213-226): walk
`i = 0, 1, …` while `lastscan + i < scan ∧ lastpos + i < |old|`,
counting matches `s` and keeping the `i` maximizing `2s - i`.
Returns `(s_f, lenf)`.  Fuel `scan - lastscan + 1` is enough. -/
def forwardGo (old new : List Byte) (lastpos : Int) (lastscan scan : Nat) :
    Nat → Nat → Nat → Nat → Nat → Nat × Nat
  | 0, _i, _s, sf, lenf => (sf, lenf)
  | fuel + 1, i, s, sf, lenf =>
    if lastscan + i < scan ∧ lastpos + (i : Int) < (old.length : Int) then
      let s' := if getI old (lastpos + (i : Int)) = new.getD (lastscan + i) 0 then s + 1 else s
      let i' := i + 1
      if (s' : Int) * 2 - (i' : Int) > (sf : Int) * 2 - (lenf : Int) then
        forwardGo old new lastpos lastscan scan fuel i' s' s' i'
      else
        forwardGo old new lastpos lastscan scan fuel i' s' sf lenf
    else (sf, lenf)

/-- The backward extension loop (src/diff.rs lines 228-242): walk
`i = 1, 2, …` while `scan ≥ lastscan + i ∧ pos ≥ i`, counting matches
and keeping the `i` maximizing `2s - i` (the comparison happens before
`i` is incremented).  Returns `(s_b, lenb)`. -/
def backwardGo (old new : List Byte) (pos lastscan scan : Nat) :
    Nat → Nat → Nat → Nat → Nat → Nat × Nat
  | 0, _i, _s, sb, lenb => (sb, lenb)
  | fuel + 1, i, s, sb, lenb =>
    if lastscan + i ≤ scan ∧ i ≤ pos then
      let s' := if old.getD (pos - i) 0 = new.getD (scan - i) 0 then s + 1 else s
      if (s' : Int) * 2 - (i : Int) > (sb : Int) * 2 - (lenb : Int) then
        backwardGo old new pos lastscan scan fuel (i + 1) s' s' i
      else
        backwardGo old new pos lastscan scan fuel (i + 1) s' sb lenb
    else (sb, lenb)

/-- The overlap resolution loop (src/diff.rs lines 248-261): for
`i ∈ [0, overlap)` score `+1` when the forward pair matches and `-1`
when the backward pair matches, tracking the `i + 1` of the best
strictly positive running sum.  `nb1/ob1` and `nb2/ob2` are the two
pairs' base indices.  Returns `lens`. -/
def overlapGo (old new : List Byte) (nb1 ob1 nb2 ob2 : Int) :
    Nat → Nat → Int → Int → Nat → Nat
  | 0, _i, _s, _ss, lens => lens
  | fuel + 1, i, s, ss, lens =>
    let s1 := if getI new (nb1 + (i : Int)) = getI old (ob1 + (i : Int)) then s + 1 else s
    let s2 := if getI new (nb2 + (i : Int)) = getI old (ob2 + (i : Int)) then s1 - 1 else s1
    if s2 > ss then overlapGo old new nb1 ob1 nb2 ob2 fuel (i + 1) s2 s2 (i + 1)
    else overlapGo old new nb1 ob1 nb2 ob2 fuel (i + 1) s2 ss lens

/-- The forward-extension result `lenf` of an emission
(src/diff.rs lines 213-226). -/
def emitLenf (old new : List Byte) (lastpos : Int) (lastscan scan : Nat) : Nat :=
  (forwardGo old new lastpos lastscan scan (scan - lastscan + 1) 0 0 0 0).2

/-- The backward-extension result `lenb` of an emission
(src/diff.rs lines 227-242); skipped when `scan` reached `|new|`. -/
def emitLenb (old new : List Byte) (pos lastscan scan : Nat) : Nat :=
  if scan < new.length then
    (backwardGo old new pos lastscan scan (scan - lastscan + 1) 1 0 0 0).2
  else 0

/-- The overlap-resolution split `lens` (src/diff.rs lines 244-261). -/
def emitLens (old new : List Byte) (lastpos : Int) (lastscan scan pos lenf lenb : Nat)
    (ovI : Int) : Nat :=
  overlapGo old new
    ((lastscan : Int) + (lenf : Int) - ovI) (lastpos + (lenf : Int) - ovI)
    ((scan : Int) - (lenb : Int)) ((pos : Int) - (lenb : Int))
    ovI.toNat 0 0 0 0

/-- The final `(lenf, lenb)` after overlap resolution (as the `isize`
values the source carries: `lenf += lens - overlap; lenb -= lens`). -/
def emitFinal (old new : List Byte) (lastscan : Nat) (lastpos : Int)
    (scan pos : Nat) : Int × Int :=
  let lenf := emitLenf old new lastpos lastscan scan
  let lenb := emitLenb old new pos lastscan scan
  let ovI : Int := ((lastscan : Int) + (lenf : Int)) - ((scan : Int) - (lenb : Int))
  if 0 < ovI then
    let lens := emitLens old new lastpos lastscan scan pos lenf lenb ovI
    ((lenf : Int) + (lens : Int) - ovI, (lenb : Int) - (lens : Int))
  else ((lenf : Int), (lenb : Int))

/-- The full emission computation (src/diff.rs lines 212-289): forward
and backward extension, overlap resolution, the fatal consistency
check, and the entry record with its payloads.  Returns the record and
the new `(lastscan, lastpos)` anchors. -/
def emitRecord (old new : List Byte) (lastscan : Nat) (lastpos : Int)
    (scan _len pos : Nat) : Except DiffError (EntryRec × Nat × Int) :=
  let fb := emitFinal old new lastscan lastpos scan pos
  let lenfI := fb.1
  let lenbI := fb.2
  let extraI : Int := ((scan : Int) - lenbI) - ((lastscan : Int) + lenfI)
  if lenfI < 0 ∨ extraI < 0 then
    .error (.internal "invalid state while creating patch")
  else
    .ok ({ diff := lenfI.toNat
           extra := extraI.toNat
           seek := ((pos : Int) - lenbI) - (lastpos + lenfI)
           diffPayload := (List.range lenfI.toNat).map fun i =>
             new.getD (lastscan + i) 0 - getI old (lastpos + (i : Int))
           extraPayload := (new.drop (lastscan + lenfI.toNat)).take extraI.toNat },
         ((scan : Int) - lenbI).toNat,
         (pos : Int) - lenbI)

/-- The outer scanning loop (`while scan < new.len()`), on fuel:
advance `scan` by the previous match length, run the inner extension
loop, and emit a record when `len != oldscore || scan == new.len()`.
Returns `none` when the fuel runs out. -/
def outerGo (old new : List Byte) :
    Nat → Nat → Nat → Nat → Int → Nat → Int →
    Option (Except DiffError (List EntryRec))
  | 0, _, _, _, _, _, _ => none
  | fuel + 1, scan, len, pos, lastoffset, lastscan, lastpos =>
    if scan < new.length then
      let scan1 := scan + len
      let exit := innerLoop old new lastoffset (new.length - scan1 + 1)
        scan1 len pos 0 scan1 0
      let fl := exit.fields
      let s := fl.1
      let l := fl.2.1
      let p := fl.2.2.1
      let os := fl.2.2.2
      if (l : Int) ≠ os ∨ s = new.length then
        match emitRecord old new lastscan lastpos s l p with
        | .error e => some (.error e)
        | .ok (rec, ls, lp) =>
          match outerGo old new fuel s l p ((p : Int) - (s : Int)) ls lp with
          | none => none
          | some (.error e) => some (.error e)
          | some (.ok rest) => some (.ok (rec :: rest))
      else outerGo old new fuel s l p lastoffset lastscan lastpos
    else some (.ok [])

/-- The (buggy) size guard of `generate` (src/diff.rs line 131):
`!old.len().max(new.len()) < i32::MAX as usize`, where `!` is Rust's
*bitwise* complement on `usize`. -/
def sizeGuard (oldLen newLen : Nat) : Bool :=
  decide (2 ^ 64 - 1 - max oldLen newLen % 2 ^ 64 < 2 ^ 31 - 1)

/-- One sub-patch: the `new_file_size` of its header plus its entry
records (terminator included). -/
structure SubPatch where
  newSize : Nat
  records : List EntryRec
  deriving DecidableEq

/-- `generate` from `src/diff.rs`, producing the sub-patch it writes
(header size, entry records, and the `write_ending` terminator); the
byte stream it emits is `serializeSubPatch` of this value.  `fuel`
bounds the number of outer-loop iterations; `none` means it ran out
(the theorems quantify over all fuels). -/
def generate (old new : List Byte) (fuel : Nat) :
    Option (Except DiffError SubPatch) :=
  if sizeGuard old.length new.length then
    some (.error (.internal "The filesize must not be larger than 2147483647 bytes"))
  else
    match outerGo old new fuel 0 0 0 0 0 0 with
    | none => none
    | some (.error e) => some (.error e)
    | some (.ok recs) => some (.ok ⟨new.length, recs ++ [endingRecord]⟩)

instance {ε α : Type} [DecidableEq ε] [DecidableEq α] : DecidableEq (Except ε α) := fun
  | .ok a, .ok b => decidable_of_iff (a = b) (by simp)
  | .error e, .error f => decidable_of_iff (e = f) (by simp)
  | .ok _, .error _ => .isFalse (by simp)
  | .error _, .ok _ => .isFalse (by simp)

/-! ## Wire format (little-endian, packed; spec §6) -/

/-- Modelled from the spec: the 8-byte magic constant of §6 (the
`DDELTA_MAGIC` definition lives in the crate root, which is not under
`src/`; its concrete value — shared with the reference ddelta tool — is
irrelevant to every claim, only its fixedness matters). -/
def DDELTA_MAGIC : List Byte := [0x44, 0x44, 0x45, 0x4C, 0x54, 0x41, 0x34, 0x30]

/-- Little-endian `u64` encoding (8 bytes). -/
def u64le (n : Nat) : List Byte :=
  [⟨n % 256, Nat.mod_lt _ (by norm_num)⟩,
   ⟨n / 256 % 256, Nat.mod_lt _ (by norm_num)⟩,
   ⟨n / 256 ^ 2 % 256, Nat.mod_lt _ (by norm_num)⟩,
   ⟨n / 256 ^ 3 % 256, Nat.mod_lt _ (by norm_num)⟩,
   ⟨n / 256 ^ 4 % 256, Nat.mod_lt _ (by norm_num)⟩,
   ⟨n / 256 ^ 5 % 256, Nat.mod_lt _ (by norm_num)⟩,
   ⟨n / 256 ^ 6 % 256, Nat.mod_lt _ (by norm_num)⟩,
   ⟨n / 256 ^ 7 % 256, Nat.mod_lt _ (by norm_num)⟩]

/-- Little-endian `i64` encoding (two's complement). -/
def i64le (s : Int) : List Byte :=
  u64le (s % (2 ^ 64 : Int)).toNat

/-- Decode the first 8 bytes as a little-endian `u64`. -/
def parseU64 (l : List Byte) : Nat :=
  (l.getD 0 0).val + 256 * ((l.getD 1 0).val + 256 * ((l.getD 2 0).val +
    256 * ((l.getD 3 0).val + 256 * ((l.getD 4 0).val + 256 * ((l.getD 5 0).val +
    256 * ((l.getD 6 0).val + 256 * (l.getD 7 0).val))))))

/-- Decode the first 8 bytes as a little-endian two's-complement `i64`. -/
def parseI64 (l : List Byte) : Int :=
  let u := parseU64 l
  if u < 2 ^ 63 then (u : Int) else (u : Int) - 2 ^ 64

/-- The bytes `generate` writes for one entry: the packed 24-byte
`EntryHeader` followed by the `diff` payload and the `extra` payload. -/
def serializeRecord (r : EntryRec) : List Byte :=
  u64le r.diff ++ u64le r.extra ++ i64le r.seek ++ r.diffPayload ++ r.extraPayload

/-- The byte stream of a record list. -/
def recsBytes (rs : List EntryRec) : List Byte :=
  (rs.map serializeRecord).flatten

/-- The byte stream of one sub-patch: the 16-byte `PatchHeader`
(8-byte `magic` then the `u64` `new_file_size`) followed by its
records. -/
def serializeSubPatch (p : SubPatch) : List Byte :=
  DDELTA_MAGIC ++ u64le p.newSize ++ recsBytes p.records

/-! ## The appliers (src/patch.rs) -/

/-- `PatchError` from src/patch.rs.  The only I/O error an in-memory
stream produces is the `UnexpectedEof` of a short `read_exact`; the
"Bytes not aligned" internal error of the `read!` macro cannot fire
(the zerocopy byteorder types have alignment 1). -/
inductive PatchError where
  | ioUnexpectedEof
  | internal (msg : String)
  deriving DecidableEq

/-- `Read::read_exact` on a list stream: consume exactly `n` bytes or
fail with `UnexpectedEof`. -/
def readExact (input : List Byte) (n : Nat) :
    Except PatchError (List Byte × List Byte) :=
  if n ≤ input.length then .ok (input.take n, input.drop n)
  else .error .ioUnexpectedEof

/-- Read `n` bytes of the old file from (seekable) cursor position
`cur`; reading past either end is an I/O failure. -/
def readOld (old : List Byte) (cur : Int) (n : Nat) :
    Except PatchError (List Byte × Int) :=
  if 0 ≤ cur ∧ cur.toNat + n ≤ old.length then
    .ok ((old.drop cur.toNat).take n, cur + (n : Int))
  else .error .ioUnexpectedEof

/-- `Seek::seek(SeekFrom::Current _)`: a resulting negative position is
an I/O failure. -/
def seekCur (cur delta : Int) : Except PatchError Int :=
  if cur + delta < 0 then .error .ioUnexpectedEof else .ok (cur + delta)

/-- The record loop of `apply_with_header` (src/patch.rs lines 84-97) on
a byte stream: read a 24-byte `EntryHeader`; on the all-zero terminator
check the size and stop (returning the remaining stream for the chunked
driver); otherwise emit `old + diff` bytes (wrapping add), copy `extra`
bytes, seek `old` by `seek`, and continue.  Each iteration consumes at
least 24 bytes, so fuel `|patch| + 1` never runs out. -/
def applyGo (old : List Byte) :
    Nat → List Byte → Int → Nat → Nat →
    Except PatchError (List Byte × List Byte)
  | 0, _, _, _, _ => .error (.internal "fuel")
  | fuel + 1, patch, cur, size, written =>
    match readExact patch 24 with
    | .error err => .error err
    | .ok (hdr, rest) =>
      let d := parseU64 hdr
      let e := parseU64 (hdr.drop 8)
      let s := parseI64 (hdr.drop 16)
      if d = 0 ∧ e = 0 ∧ s = 0 then
        if written = size then .ok ([], rest)
        else .error (.internal "Patch too short")
      else
        match readExact rest d with
        | .error err => .error err
        | .ok (dp, rest) =>
          match readOld old cur d with
          | .error err => .error err
          | .ok (ob, cur) =>
            match readExact rest e with
            | .error err => .error err
            | .ok (ep, rest) =>
              match seekCur cur s with
              | .error err => .error err
              | .ok cur =>
                match applyGo old fuel rest cur size (written + d + e) with
                | .error err => .error err
                | .ok (out, rest) =>
                  .ok ((List.zipWith (· + ·) ob dp) ++ ep ++ out, rest)

/-- `apply_with_header`: check the magic, then run the record loop from
the given old-file cursor. -/
def applyWithHeader (old patch : List Byte) (magic : List Byte) (size : Nat)
    (cur : Int) : Except PatchError (List Byte × List Byte) :=
  if magic ≠ DDELTA_MAGIC then .error (.internal "Invalid magic number")
  else applyGo old (patch.length + 1) patch cur size 0

/-- `apply` from src/patch.rs: read the `PatchHeader`, then apply with
it, the old-file cursor starting at the stream position 0. -/
def apply (old patch : List Byte) : Except PatchError (List Byte) :=
  match readExact patch 16 with
  | .error err => .error err
  | .ok (hdr, rest) =>
    match applyWithHeader old rest (hdr.take 8) (parseU64 (hdr.drop 8)) 0 with
    | .error err => .error err
    | .ok (out, _) => .ok out

/-- The loop of `apply_chunked` (src/patch.rs lines 123-139): read a
`PatchHeader` — treating an `UnexpectedEof` there as normal
termination —, seek old to `Start(bytes_written)`, account the declared
size, and run `apply_with_header`. -/
def applyChunkedGo (old : List Byte) :
    Nat → List Byte → Nat → Except PatchError (List Byte)
  | 0, _, _ => .error (.internal "fuel")
  | fuel + 1, patch, written =>
    match readExact patch 16 with
    | .error e =>
      match e with
      | .ioUnexpectedEof => .ok []
      | .internal m => .error (.internal m)
    | .ok (hdr, rest) =>
      let size := parseU64 (hdr.drop 8)
      match applyWithHeader old rest (hdr.take 8) size (written : Int) with
      | .error err => .error err
      | .ok (out, rest) =>
        match applyChunkedGo old fuel rest (written + size) with
        | .error err => .error err
        | .ok more => .ok (out ++ more)

/-- `apply_chunked` from src/patch.rs. -/
def apply_chunked (old patch : List Byte) : Except PatchError (List Byte) :=
  applyChunkedGo old (patch.length + 1) patch 0

/-! ## The chunked generator (src/diff.rs lines 54-91) -/

/-- The loop of `generate_chunked`: read up to `chunk` bytes of new
(`read_up_to` on a list stream reads `min chunk |remaining|` bytes); an
empty read ends the stream — emitting the empty sub-patch if nothing
was written yet —; otherwise read the old chunk, run `generate`, and
continue.  `fuel` is also passed through to `generate`. -/
def generateChunkedGo (old new : List Byte) (chunk : Nat) :
    Nat → Nat → Option (Except DiffError (List Byte))
  | 0, _ => none
  | fuel + 1, bytesCompleted =>
    let newChunk := new.take chunk
    if newChunk.isEmpty then
      if bytesCompleted = 0 then
        some (.ok (serializeSubPatch ⟨0, [endingRecord]⟩))
      else some (.ok [])
    else
      let oldChunk := old.take chunk
      match generate oldChunk newChunk fuel with
      | none => none
      | some (.error e) => some (.error e)
      | some (.ok p) =>
        match generateChunkedGo (old.drop chunk) (new.drop chunk) chunk fuel
          (bytesCompleted + newChunk.length) with
        | none => none
        | some (.error e) => some (.error e)
        | some (.ok rest) => some (.ok (serializeSubPatch p ++ rest))

/-- `generate_chunked` from src/diff.rs: clamp the chunk size to
`i32::MAX - 1` (defaulting to it), then run the chunk loop. -/
def generate_chunked (old new : List Byte) (chunkSizes : Option Nat)
    (fuel : Nat) : Option (Except DiffError (List Byte)) :=
  let cs := min (chunkSizes.getD (2 ^ 31 - 2)) (2 ^ 31 - 2)
  generateChunkedGo old new cs fuel 0

/-! ## Specification predicates and proof-support definitions -/

/-- Claim C3's characterization as written: `match_len a b = k` iff the
first `k` bytes agree and either *both* sequences end at `k` or the
`(k+1)`-th bytes differ. -/
def matchLenSpecOrig (a b : List Byte) (k : Nat) : Prop :=
  k ≤ a.length ∧ k ≤ b.length ∧ (∀ i, i < k → a.getD i 0 = b.getD i 0) ∧
  ((a.length = k ∧ b.length = k) ∨
    (k < a.length ∧ k < b.length ∧ a.getD k 0 ≠ b.getD k 0))

/-- The corrected characterization: *at least one* of the sequences
ends at `k`, or the `(k+1)`-th bytes differ. -/
def matchLenSpecAmended (a b : List Byte) (k : Nat) : Prop :=
  k ≤ a.length ∧ k ≤ b.length ∧ (∀ i, i < k → a.getD i 0 = b.getD i 0) ∧
  (a.length = k ∨ b.length = k ∨
    (k < a.length ∧ k < b.length ∧ a.getD k 0 ≠ b.getD k 0))

instance (a b : List Byte) (k : Nat) : Decidable (matchLenSpecOrig a b k) := by
  unfold matchLenSpecOrig; infer_instance

instance (a b : List Byte) (k : Nat) : Decidable (matchLenSpecAmended a b k) := by
  unfold matchLenSpecAmended; infer_instance

/-- Number of positions `j ∈ [a, b)` that match the old buffer at
offset `off` (the quantity `oldscore` accumulates). -/
def countM (old new : List Byte) (off : Int) (a b : Nat) : Nat :=
  (List.range' a (b - a)).countP fun j => matchAt old new off j

/-- The signed value of the `oldscore` variable at the start of an
inner-loop iteration: matches counted ahead of `scan` minus matches
already dropped behind it. -/
def osVal (old new : List Byte) (off : Int) (scan scsc : Nat) : Int :=
  if scan ≤ scsc then (countM old new off scan scsc : Int)
  else -(countM old new off scsc scan : Int)

/-- The invariant on the outer-loop state `(scan, len, pos, lastoffset,
lastscan, lastpos)` at each loop-condition checkpoint. -/
def StateInv (old new : List Byte) (scan len pos : Nat) (lastoffset : Int)
    (lastscan : Nat) (lastpos : Int) : Prop :=
  lastoffset = lastpos - (lastscan : Int) ∧
  0 ≤ lastpos ∧
  lastpos ≤ (old.length : Int) ∧
  lastscan ≤ scan ∧
  (scan < new.length → scan + len ≤ new.length) ∧
  (new.length ≤ scan → lastscan = new.length) ∧
  pos ≤ old.length - 1

/-- Validity of a record list for reconstruction: starting with the old
cursor at `cur` and `written` output bytes already produced, the list
reconstructs `new.drop written` and ends with the terminator exactly at
`written = |new|`.  These are precisely the facts the applier needs. -/
inductive RecsOk (old new : List Byte) : Int → Nat → List EntryRec → Prop where
  | term : ∀ cur, RecsOk old new cur new.length [endingRecord]
  | cons : ∀ (cur : Int) (written : Nat) (r : EntryRec) (rest : List EntryRec),
      ¬ isZeroRec r →
      r.diffPayload.length = r.diff →
      r.extraPayload.length = r.extra →
      0 ≤ cur →
      cur + (r.diff : Int) ≤ (old.length : Int) →
      0 ≤ cur + (r.diff : Int) + r.seek →
      cur + (r.diff : Int) + r.seek ≤ (old.length : Int) →
      written + r.diff + r.extra ≤ new.length →
      (∀ i, i < r.diff →
        old.getD (cur.toNat + i) 0 + r.diffPayload.getD i 0 = new.getD (written + i) 0) →
      (∀ i, i < r.extra →
        r.extraPayload.getD i 0 = new.getD (written + r.diff + i) 0) →
      RecsOk old new (cur + (r.diff : Int) + r.seek) (written + r.diff + r.extra) rest →
      RecsOk old new cur written (r :: rest)

/-- What each inner-loop exit guarantees (relative to the entry point
`base` of the loop): the accept and stuck exits carry the fresh search
result and the accumulated score over the window `[s, sc)`; the stuck
exit has run at least 100 iterations past `base` and its score is the
post-decrement value with the accept condition having failed; the done
exit means `scan` reached `|new|`, with the stale `len`/`pos` bounded. -/
def InnerExitOk (old new : List Byte) (off : Int) (base : Nat) :
    InnerExit → Prop
  | .accept s l p os sc =>
      s < new.length ∧ base ≤ s ∧ (l, p) = searchStep old new s ∧
      s + l ≤ sc ∧ os = (countM old new off s sc : Int) ∧
      (((l : Int) = os ∧ l ≠ 0) ∨ (l : Int) > os + 8)
  | .stuck s l p os sc =>
      s < new.length ∧ base + 100 ≤ s ∧ (l, p) = searchStep old new s ∧
      s + l ≤ sc ∧
      os = (countM old new off s sc : Int) -
        (if matchAt old new off s then 1 else 0) ∧
      ¬ (((l : Int) = (countM old new off s sc : Int) ∧ l ≠ 0) ∨
          (l : Int) > (countM old new off s sc : Int) + 8) ∧
      os ≤ (l : Int)
  | .done s _l p _os _sc =>
      s = new.length ∧ base ≤ s ∧ p ≤ old.length - 1

/-! # Lemmas and claim theorems -/

/-! ## `match_len` (claim C3) -/

theorem takeWhile_enumFrom (l : List (Byte × Byte)) :
    ∀ n, (l.enumFrom n).takeWhile (fun q => q.2.1 == q.2.2) =
      (l.takeWhile fun q => q.1 == q.2).enumFrom n := by
  induction l with
  | nil => intro n; rfl
  | cons x xs ih =>
    intro n
    rw [List.enumFrom_cons, List.takeWhile_cons, List.takeWhile_cons]
    by_cases hx : (x.1 == x.2) = true
    · simp only [hx, if_true, List.enumFrom_cons, ih]
    · simp [hx]

theorem getLast?_enumFrom_fst (l : List (Byte × Byte)) :
    ∀ n, ((l.enumFrom n).getLast?).map Prod.fst =
      if l.length = 0 then none else some (n + l.length - 1) := by
  induction l with
  | nil => intro n; rfl
  | cons x xs ih =>
    intro n
    cases xs with
    | nil => simp [List.enumFrom_cons]
    | cons y ys =>
      rw [List.enumFrom_cons, List.enumFrom_cons, List.getLast?_cons_cons,
        ← List.enumFrom_cons]
      rw [ih (n + 1)]
      rw [if_neg (by simp : ¬ ((y :: ys).length = 0)),
        if_neg (by simp : ¬ ((x :: y :: ys).length = 0))]
      simp only [Option.some.injEq, List.length_cons]
      omega

theorem mlAux_eq (l : List (Byte × Byte)) (n : Nat) :
    mlAux n l =
      if (l.takeWhile fun q => q.1 == q.2) = [] then 0
      else n + (l.takeWhile fun q => q.1 == q.2).length := by
  rw [mlAux, takeWhile_enumFrom]
  have h := getLast?_enumFrom_fst (l.takeWhile fun q => q.1 == q.2) n
  rcases hL : (((l.takeWhile fun q => q.1 == q.2).enumFrom n).getLast?) with _ | q
  · rw [hL] at h
    rw [hL]
    simp only [Option.map_none'] at h
    split at h
    · next hlen =>
      rw [List.length_eq_zero] at hlen
      simp [hlen]
    · exact absurd h (by simp)
  · rw [hL] at h
    rw [hL]
    simp only [Option.map_some'] at h
    split at h
    · exact absurd h (by simp)
    · next hlen =>
      simp only [Option.some.injEq] at h
      have hne : ¬ ((l.takeWhile fun q => q.1 == q.2) = []) := by
        intro hc; rw [hc] at hlen; simp at hlen
      rw [if_neg hne]
      show q.1 + 1 = n + (l.takeWhile fun q => q.1 == q.2).length
      omega

theorem match_len_eq_mlAux (a b : List Byte) : match_len a b = mlAux 0 (a.zip b) := by
  rw [match_len, mlAux, List.enum_eq_enumFrom]

theorem lcp_eq_takeWhile (a : List Byte) :
    ∀ b, lcp a b = ((a.zip b).takeWhile fun q => q.1 == q.2).length := by
  induction a with
  | nil => intro b; simp [lcp]
  | cons x xs ih =>
    intro b
    cases b with
    | nil => simp [lcp]
    | cons y ys =>
      rw [lcp]
      by_cases h : x = y
      · simp [h, List.takeWhile_cons, ih]
      · simp [h, List.takeWhile_cons]

theorem match_len_eq_lcp (a b : List Byte) : match_len a b = lcp a b := by
  rw [match_len_eq_mlAux, mlAux_eq, lcp_eq_takeWhile]
  split
  · next h => rw [h]; rfl
  · omega

theorem lcp_le_left (a : List Byte) : ∀ b, lcp a b ≤ a.length := by
  induction a with
  | nil => intro b; simp [lcp]
  | cons x xs ih =>
    intro b
    cases b with
    | nil => simp [lcp]
    | cons y ys =>
      rw [lcp]
      split
      · simpa using ih ys
      · simp

theorem lcp_le_right (a : List Byte) : ∀ b, lcp a b ≤ b.length := by
  induction a with
  | nil => intro b; simp [lcp]
  | cons x xs ih =>
    intro b
    cases b with
    | nil => simp [lcp]
    | cons y ys =>
      rw [lcp]
      split
      · simpa using ih ys
      · simp

theorem lcp_getD (a : List Byte) :
    ∀ b i, i < lcp a b → a.getD i 0 = b.getD i 0 := by
  induction a with
  | nil => intro b i h; simp [lcp] at h
  | cons x xs ih =>
    intro b i h
    cases b with
    | nil => simp [lcp] at h
    | cons y ys =>
      rw [lcp] at h
      split at h
      · cases i with
        | zero => simpa using ‹x = y›
        | succ j => simpa using ih ys j (by omega)
      · omega

theorem lcp_boundary (a : List Byte) :
    ∀ b, lcp a b = a.length ∨ lcp a b = b.length ∨
      (lcp a b < a.length ∧ lcp a b < b.length ∧
        a.getD (lcp a b) 0 ≠ b.getD (lcp a b) 0) := by
  induction a with
  | nil => intro b; left; simp [lcp]
  | cons x xs ih =>
    intro b
    cases b with
    | nil => right; left; simp [lcp]
    | cons y ys =>
      rw [lcp]
      by_cases h : x = y
      · simp only [h, if_true]
        rcases ih ys with h1 | h1 | h1
        · left; simp [h1]
        · right; left; simp [h1]
        · right; right
          refine ⟨by simpa using h1.1, by simpa using h1.2.1, ?_⟩
          simpa using h1.2.2
      · right; right
        simp [h]

theorem lcp_ge (a : List Byte) :
    ∀ b k, k ≤ a.length → k ≤ b.length →
      (∀ i, i < k → a.getD i 0 = b.getD i 0) → k ≤ lcp a b := by
  induction a with
  | nil => intro b k hk _ _; simp at hk; omega
  | cons x xs ih =>
    intro b k hka hkb hi
    cases b with
    | nil => simp at hkb; omega
    | cons y ys =>
      cases k with
      | zero => omega
      | succ m =>
        have hxy : x = y := by simpa using hi 0 (by omega)
        rw [lcp, if_pos hxy]
        have := ih ys m (by simpa using hka) (by simpa using hkb)
          (fun i hi2 => by simpa using hi (i + 1) (by omega))
        omega

/-- C3 (amended form): the characterization of `match_len` with "at
least one sequence ends at `k`". -/
theorem match_len_amended_iff (a b : List Byte) (k : Nat) :
    match_len a b = k ↔ matchLenSpecAmended a b k := by
  rw [match_len_eq_lcp]
  constructor
  · rintro rfl
    refine ⟨lcp_le_left a b, lcp_le_right a b, fun i hi => lcp_getD a b i hi, ?_⟩
    rcases lcp_boundary a b with h | h | h
    · exact Or.inl h.symm
    · exact Or.inr (Or.inl h.symm)
    · exact Or.inr (Or.inr h)
  · rintro ⟨hka, hkb, heq, hend⟩
    have hge : k ≤ lcp a b := lcp_ge a b k hka hkb heq
    have hle : lcp a b ≤ k := by
      rcases hend with h | h | ⟨h1, h2, h3⟩
      · have := lcp_le_left a b; omega
      · have := lcp_le_right a b; omega
      · by_contra hgt
        exact h3 (lcp_getD a b k (by omega))
    omega

/-! ## Claim C2: the size guard -/

/-- C2: the guard `!old.len().max(new.len()) < i32::MAX as usize`
applies Rust's bitwise complement to the *length*, so it is false for
every realistic length — in particular for all lengths `≥ 2^31`, where
the spec demands an error.  `generate` therefore never takes its
size-error branch. -/
theorem sizeGuard_never_fires (m n : Nat) (hm : m ≤ 2 ^ 63) (hn : n ≤ 2 ^ 63) :
    sizeGuard m n = false := by
  have h64 : (2 : ℕ) ^ 64 = 18446744073709551616 := by norm_num
  have h63 : (2 : ℕ) ^ 63 = 9223372036854775808 := by norm_num
  have h31 : (2 : ℕ) ^ 31 = 2147483648 := by norm_num
  simp only [sizeGuard, decide_eq_false_iff_not]
  have hmax : max m n % 2 ^ 64 = max m n := Nat.mod_eq_of_lt (by omega)
  rw [hmax]
  omega

theorem sizeGuard_never_fires_witness : sizeGuard (2 ^ 31) (2 ^ 31) = false :=
  sizeGuard_never_fires _ _ (by norm_num) (by norm_num)

/-- C3, counterexample: `match_len "abc" "abcfed" = 3` (also asserted by
the source's own test), yet at `k = 3` neither do *both* sequences end
nor do the 4th bytes differ (the first has no 4th byte), so the claim's
characterization fails in the "only if" direction. -/
theorem match_len_orig_spec_counterexample :
    match_len [97, 98, 99] [97, 98, 99, 102, 101, 100] = 3 ∧
    ¬ matchLenSpecOrig [97, 98, 99] [97, 98, 99, 102, 101, 100] 3 := by
  constructor
  · rfl
  · decide

/-- C3 (amended): `match_len a b = k` iff the first `k` bytes agree and
either *at least one* of the sequences ends at `k` or the `(k+1)`-th
bytes differ; and the claim's concrete examples
`match_len "abcdef" "abcfed" = 3`, `match_len "dabcde" "abcfed" = 0`. -/
theorem match_len_characterization :
    (∀ (a b : List Byte) (k : Nat), match_len a b = k ↔ matchLenSpecAmended a b k) ∧
    match_len [97, 98, 99, 100, 101, 102] [97, 98, 99, 102, 101, 100] = 3 ∧
    match_len [100, 97, 98, 99, 100, 101] [97, 98, 99, 102, 101, 100] = 0 :=
  ⟨match_len_amended_iff, rfl, rfl⟩

/-! ## Search lemmas (claims C7, C8, C9) -/

theorem searchGo_fst (sorted : List Nat) (old q : List Byte) :
    ∀ fuel st en, (searchGo sorted old q fuel st en).1 =
      match_len (old.drop ((searchGo sorted old q fuel st en).2)) q := by
  intro fuel
  induction fuel with
  | zero => intro st en; rfl
  | succ f ih =>
    intro st en
    rw [searchGo]
    dsimp only
    split
    · split <;> rfl
    · split
      · exact ih _ _
      · exact ih _ _

theorem searchGo_pos_exists (sorted : List Nat) (old q : List Byte) :
    ∀ fuel st en, ∃ i, (searchGo sorted old q fuel st en).2 = sorted.getD i 0 := by
  intro fuel
  induction fuel with
  | zero => intro st en; exact ⟨st, rfl⟩
  | succ f ih =>
    intro st en
    rw [searchGo]
    dsimp only
    split
    · split
      · exact ⟨st, rfl⟩
      · exact ⟨en, rfl⟩
    · split
      · exact ih _ _
      · exact ih _ _

theorem getD_le_of_forall_mem (l : List Nat) (B i : Nat)
    (h : ∀ x ∈ l, x ≤ B) : l.getD i 0 ≤ B := by
  rcases hx : l[i]? with _ | x
  · rw [List.getD_eq_getElem?_getD, hx]; exact Nat.zero_le B
  · rw [List.getD_eq_getElem?_getD, hx]
    exact h x (List.getElem?_mem hx)

theorem mem_insertSuffix (old : List Byte) (i x : Nat) :
    ∀ l, x ∈ insertSuffix old i l → x = i ∨ x ∈ l := by
  intro l
  induction l with
  | nil => intro h; simp [insertSuffix] at h; exact Or.inl h
  | cons j js ih =>
    intro h
    rw [insertSuffix] at h
    split at h
    · rcases List.mem_cons.mp h with h2 | h2
      · exact Or.inl h2
      · exact Or.inr h2
    · rcases List.mem_cons.mp h with h2 | h2
      · exact Or.inr (by simp [h2])
      · rcases ih h2 with h3 | h3
        · exact Or.inl h3
        · exact Or.inr (by simp [h3])

theorem mem_sortSuffixes (old : List Byte) (x : Nat) :
    ∀ l, x ∈ sortSuffixes old l → x ∈ l := by
  intro l
  induction l with
  | nil => intro h; simp [sortSuffixes] at h
  | cons j js ih =>
    intro h
    rw [sortSuffixes] at h
    rcases mem_insertSuffix old j x _ h with h2 | h2
    · simp [h2]
    · simp [ih h2]

theorem suffixList_getD_le (old : List Byte) (i : Nat) :
    (suffixList old).getD i 0 ≤ old.length - 1 := by
  apply getD_le_of_forall_mem
  intro x hx
  rw [suffixList, List.mem_append] at hx
  rcases hx with hx | hx
  · have := mem_sortSuffixes old x _ hx
    rw [List.mem_range] at this
    omega
  · simp at hx
    omega

theorem sortSuffixes_length (old : List Byte) :
    ∀ l, (sortSuffixes old l).length = l.length := by
  have hins : ∀ i l, (insertSuffix old i l).length = l.length + 1 := by
    intro i l
    induction l with
    | nil => rfl
    | cons j js ih =>
      rw [insertSuffix]
      split
      · rfl
      · simp [ih]
  intro l
  induction l with
  | nil => rfl
  | cons j js ih => rw [sortSuffixes, hins, ih]; rfl

theorem suffixList_getD_len (old : List Byte) :
    (suffixList old).getD old.length 0 = 0 := by
  rw [suffixList]
  rw [List.getD_eq_getElem?_getD,
    List.getElem?_append_right (by rw [sortSuffixes_length, List.length_range])]
  rw [sortSuffixes_length, List.length_range]
  simp

/-- Length of a search result is the match at its returned position. -/
theorem searchStep_fst (old new : List Byte) (scan : Nat) :
    (searchStep old new scan).1 =
      match_len ((old.take (old.length - 1)).drop ((searchStep old new scan).2))
        (new.drop scan) :=
  searchGo_fst _ _ _ _ _ _

theorem match_len_le_left (a b : List Byte) : match_len a b ≤ a.length := by
  rw [match_len_eq_lcp]; exact lcp_le_left a b

theorem match_len_le_right (a b : List Byte) : match_len a b ≤ b.length := by
  rw [match_len_eq_lcp]; exact lcp_le_right a b

/-- Position bound of the scanning loop's search call. -/
theorem searchStep_pos_le (old new : List Byte) (scan : Nat) :
    (searchStep old new scan).2 ≤ old.length - 1 := by
  obtain ⟨i, hi⟩ := searchGo_pos_exists (suffixList old) (old.take (old.length - 1))
    (new.drop scan) (old.length - 0 + 1) 0 old.length
  have hs : searchStep old new scan = searchGo (suffixList old)
      (old.take (old.length - 1)) (new.drop scan) (old.length - 0 + 1) 0 old.length := rfl
  rw [hs, hi]
  exact suffixList_getD_le old i

/-- Length bound of the scanning loop's search call:
`len ≤ |new| - scan`. -/
theorem searchStep_len_le (old new : List Byte) (scan : Nat) :
    (searchStep old new scan).1 ≤ new.length - scan := by
  have h := searchStep_fst old new scan
  have h2 := match_len_le_right
    ((old.take (old.length - 1)).drop ((searchStep old new scan).2)) (new.drop scan)
  rw [← h] at h2
  simpa using h2

/-- C9: for nonempty `old`, the scanning loop passes `search` the old
buffer truncated by its final byte (see `searchStep`), so the returned
candidate `(len, pos)` satisfies `pos + len ≤ |old| - 1`: it never
extends over the last byte of `old`. -/
theorem searchStep_spares_last_byte (old new : List Byte) (scan : Nat)
    (_h : old ≠ []) :
    (searchStep old new scan).2 + (searchStep old new scan).1 ≤ old.length - 1 := by
  have hpos := searchStep_pos_le old new scan
  have hfst := searchStep_fst old new scan
  have hlen := match_len_le_left
    ((old.take (old.length - 1)).drop ((searchStep old new scan).2)) (new.drop scan)
  rw [← hfst] at hlen
  have hdrop : ((old.take (old.length - 1)).drop ((searchStep old new scan).2)).length =
      (old.take (old.length - 1)).length - (searchStep old new scan).2 := by
    simp
  have htake : (old.take (old.length - 1)).length = old.length - 1 := by
    simp
  omega

theorem searchStep_spares_last_byte_witness :
    (searchStep [3, 1, 2] [1, 2, 9] 0).2 + (searchStep [3, 1, 2] [1, 2, 9] 0).1 ≤ 2 :=
  searchStep_spares_last_byte [3, 1, 2] [1, 2, 9] 0 (by decide)

/-- Fuel irrelevance for the binary search: any fuel exceeding the
interval width gives the same result. -/
theorem searchGo_fuel_irrel (sorted : List Nat) (old q : List Byte) :
    ∀ f₁ f₂ st en, en - st < f₁ → en - st < f₂ →
      searchGo sorted old q f₁ st en = searchGo sorted old q f₂ st en := by
  intro f₁
  induction f₁ with
  | zero => intro f₂ st en h1 _; omega
  | succ f ih =>
    intro f₂ st en h1 h2
    cases f₂ with
    | zero => omega
    | succ g =>
      rw [searchGo, searchGo]
      dsimp only
      split
      · rfl
      · next hwide =>
        have hw : 2 ≤ en - st := by omega
        have hmid1 : en - (st + (en - st) / 2) < f := by omega
        have hmid2 : en - (st + (en - st) / 2) < g := by omega
        have hmid3 : st + (en - st) / 2 - st < f := by omega
        have hmid4 : st + (en - st) / 2 - st < g := by omega
        split
        · exact ih g _ _ hmid1 hmid2
        · exact ih g _ _ hmid3 hmid4

/-- C8: the binary search's structure: (1) when the interval satisfies
`en - st < 2` it returns the longer of the two common-prefix matches at
`sorted[st]` and `sorted[en]` together with the corresponding position;
(2) when the midpoint compare is `Equal` (which is `≠ Greater`), the
search recurses into the upper half `[mid, en]`. -/
theorem search_structure :
    (∀ (sorted : List Nat) (old q : List Byte) (st en : Nat), en - st < 2 →
      search sorted old q st en =
        (if match_len (old.drop (sorted.getD st 0)) q >
              match_len (old.drop (sorted.getD en 0)) q then
            (match_len (old.drop (sorted.getD st 0)) q, sorted.getD st 0)
          else
            (match_len (old.drop (sorted.getD en 0)) q, sorted.getD en 0))) ∧
    (∀ (sorted : List Nat) (old q : List Byte) (st en : Nat), 2 ≤ en - st →
      min_memcmp (old.drop (sorted.getD (st + (en - st) / 2) 0)) q = Ordering.eq →
      search sorted old q st en = search sorted old q (st + (en - st) / 2) en) := by
  constructor
  · intro sorted old q st en h
    rw [search]
    have : en - st + 1 = (en - st) + 1 := rfl
    rw [searchGo]
    rw [if_pos h]
  · intro sorted old q st en h hcmp
    rw [search, search]
    have h1 : en - st < en - st + 1 := by omega
    conv_lhs => rw [searchGo]
    rw [if_neg (by omega)]
    rw [if_pos (by rw [hcmp]; decide)]
    exact searchGo_fuel_irrel sorted old q _ _ _ _ (by omega) (by omega)

theorem search_structure_witness :
    search [0, 1] [7, 7] [7] 0 1 = (1, 1) ∧
    search [0, 1, 2] [7, 7] [7] 0 2 = search [0, 1, 2] [7, 7] [7] 1 2 := by
  constructor
  · rw [search_structure.1 [0, 1] [7, 7] [7] 0 1 (by decide)]
    decide
  · exact search_structure.2 [0, 1, 2] [7, 7] [7] 0 2 (by decide) (by decide)

theorem ite_stuck_advance_ne_accept (c : Prop) [Decidable c] (a1 a2 : Nat)
    (a3 : Int) (a4 : Nat) (b1 b2 : Nat) (b3 : Int) (b4 b5 : Nat)
    (l p : Nat) (o : Int) (sc : Nat) :
    (if c then StepRes.brkStuck a1 a2 a3 a4 else StepRes.advance b1 b2 b3 b4 b5) ≠
      StepRes.brkAccept l p o sc := by
  split <;> simp

/-- C7: the inner extension loop breaks out reporting a meaningful new
match exactly when, with `len` freshly returned by search and
`oldscore` freshly accumulated over `[scsc, scan + len)`, the accept
condition `(len == oldscore && len != 0) || (len > oldscore + 8)`
holds. -/
theorem inner_accept_iff (old new : List Byte) (off : Int) (scan len pos : Nat)
    (oldscore : Int) (scsc num : Nat) :
    (∃ l p o sc, innerStep old new off scan len pos oldscore scsc num =
      .brkAccept l p o sc) ↔
    (((((searchStep old new scan).1 : Int) =
        (accumGo old new off (scan + (searchStep old new scan).1 - scsc) scsc
          (scan + (searchStep old new scan).1) oldscore).1 ∧
      (searchStep old new scan).1 ≠ 0) ∨
      ((searchStep old new scan).1 : Int) >
        (accumGo old new off (scan + (searchStep old new scan).1 - scsc) scsc
          (scan + (searchStep old new scan).1) oldscore).1 + 8)) := by
  constructor
  · rintro ⟨l, p, o, sc, hstep⟩
    rw [innerStep] at hstep
    split at hstep
    · next hc => exact hc
    · next _hc =>
      exact absurd hstep (ite_stuck_advance_ne_accept _ _ _ _ _ _ _ _ _ _ _ _ _ _)
  · intro hc
    rw [innerStep]
    split
    · exact ⟨_, _, _, _, rfl⟩
    · next hnc => exact absurd hc hnc

/-! ## Claim C4: EOF handling in `apply_chunked` -/

/-- C4, counterexample: three stray bytes — an EOF *partway through* a
sub-patch header — are treated as normal termination (`Ok`), because
`read_exact` reports every short read as `UnexpectedEof` and
`apply_chunked` maps any `UnexpectedEof` of the header read to success;
the claim says this case must be an error. -/
theorem apply_chunked_partial_header_ok :
    apply_chunked [] [37, 37, 37] = .ok [] ∧ ([37, 37, 37] : List Byte) ≠ [] := by
  constructor
  · rfl
  · decide

/-! ## Claim C10: `generate_chunked` with an empty new input -/

/-- C10: whatever the old input and chunk size, a new input yielding
zero bytes makes `generate_chunked` write exactly one sub-patch — a
header with `new_file_size = 0` followed immediately by the all-zero
terminator record — and succeed. -/
theorem generate_chunked_empty_new (old : List Byte) (chunk : Option Nat)
    (fuel : Nat) (hfuel : 1 ≤ fuel) :
    generate_chunked old [] chunk fuel =
      some (.ok (DDELTA_MAGIC ++ u64le 0 ++ serializeRecord endingRecord)) := by
  cases fuel with
  | zero => omega
  | succ f =>
    rw [generate_chunked, generateChunkedGo]
    rw [if_pos (by simp)]
    rw [if_pos rfl]
    rfl

theorem generate_chunked_empty_new_witness :
    generate_chunked [3, 1, 4] [] (some 2) 1 =
      some (.ok (DDELTA_MAGIC ++ u64le 0 ++ serializeRecord endingRecord)) :=
  generate_chunked_empty_new [3, 1, 4] (some 2) 1 (by decide)

/-! ## The `oldscore` window (claims C1, C5, C6) -/

theorem countM_self (old new : List Byte) (off : Int) (a : Nat) :
    countM old new off a a = 0 := by
  simp [countM]

theorem countM_append (old new : List Byte) (off : Int) (a m b : Nat)
    (h1 : a ≤ m) (h2 : m ≤ b) :
    countM old new off a b = countM old new off a m + countM old new off m b := by
  have hr : List.range' a (m - a) ++ List.range' m (b - m) = List.range' a (b - a) := by
    have := List.range'_append a (m - a) (b - m) 1
    simp only [one_mul, Nat.mul_one] at this
    rw [show a + (m - a) = m by omega] at this
    rw [show b - m + (m - a) = b - a by omega] at this
    exact this
  rw [countM, countM, countM, ← hr, List.countP_append]

theorem countM_single (old new : List Byte) (off : Int) (a : Nat) :
    countM old new off a (a + 1) =
      (if matchAt old new off a then 1 else 0) := by
  simp only [countM, Nat.add_sub_cancel_left, List.range'_one]
  rw [List.countP_cons]
  simp only [List.countP_nil]
  split <;> simp_all

theorem accumGo_spec (old new : List Byte) (off : Int) :
    ∀ (fuel scsc bound : Nat) (os : Int), bound ≤ scsc + fuel →
      accumGo old new off fuel scsc bound os =
        (os + (countM old new off scsc (max scsc bound) : Int), max scsc bound) := by
  intro fuel
  induction fuel with
  | zero =>
    intro scsc bound os h
    rw [accumGo]
    have hm : max scsc bound = scsc := by omega
    rw [hm, countM_self]
    simp
  | succ f ih =>
    intro scsc bound os h
    rw [accumGo]
    split
    · next hlt =>
      rw [ih (scsc + 1) bound _ (by omega)]
      have hm1 : max (scsc + 1) bound = bound := by omega
      have hm2 : max scsc bound = bound := by omega
      rw [hm1, hm2]
      have hsplit : countM old new off scsc bound =
          countM old new off scsc (scsc + 1) + countM old new off (scsc + 1) bound := by
        exact countM_append old new off scsc (scsc + 1) bound (by omega) (by omega)
      rw [countM_single] at hsplit
      split
      · next hmt =>
        rw [hmt] at hsplit
        simp only [if_true] at hsplit
        rw [hsplit]
        push_cast
        ring_nf
      · next hmf =>
        rw [Bool.not_eq_true] at hmf
        rw [hmf] at hsplit
        simp only [Bool.false_eq_true, if_false] at hsplit
        rw [hsplit]
        push_cast
        ring_nf
    · next hge =>
      have hm : max scsc bound = scsc := by omega
      rw [hm, countM_self]
      simp

/-- Transport of the `oldscore` invariant through the accumulation
phase: starting from `osVal scan scsc`, accumulating to
`bound = scan + l` yields the plain count over `[scan, max scsc (scan+l))`. -/
theorem os_accum (old new : List Byte) (off : Int) (scan scsc l : Nat) (os : Int)
    (h : os = osVal old new off scan scsc) :
    accumGo old new off (scan + l - scsc) scsc (scan + l) os =
      ((countM old new off scan (max scsc (scan + l)) : Int),
        max scsc (scan + l)) := by
  rw [accumGo_spec old new off (scan + l - scsc) scsc (scan + l) os (by omega)]
  subst h
  rcases Nat.le_total scan scsc with hcase | hcase
  · rw [osVal, if_pos hcase]
    rcases Nat.le_total scsc (scan + l) with hc2 | hc2
    · have hm : max scsc (scan + l) = scan + l := by omega
      rw [hm]
      have := countM_append old new off scan scsc (scan + l) hcase hc2
      rw [this]
      push_cast
      ring_nf
    · have hm : max scsc (scan + l) = scsc := by omega
      rw [hm, countM_self]
      simp
  · rw [osVal]
    rcases Nat.lt_or_ge scsc scan with hlt | hge
    · rw [if_neg (by omega)]
      have hm : max scsc (scan + l) = scan + l := by omega
      rw [hm]
      have := countM_append old new off scsc scan (scan + l) (by omega) (by omega)
      rw [this]
      push_cast
      ring_nf
    · have heq : scan = scsc := by omega
      subst heq
      rw [if_pos le_rfl, countM_self]
      have hm : max scan (scan + l) = scan + l := by omega
      rw [hm]
      simp

/-- Transport of the `oldscore` invariant through the single-byte
decrement and the `scan + 1` advance. -/
theorem os_dec (old new : List Byte) (off : Int) (scan m : Nat)
    (h : scan ≤ m) :
    (countM old new off scan m : Int) -
      (if matchAt old new off scan then 1 else 0) =
      osVal old new off (scan + 1) m := by
  rcases Nat.lt_or_ge scan m with hlt | hge
  · have hsplit := countM_append old new off scan (scan + 1) m (by omega) (by omega)
    rw [countM_single] at hsplit
    rw [osVal, if_pos (show scan + 1 ≤ m from hlt), hsplit]
    split <;> push_cast <;> omega
  · have heq : scan = m := by omega
    subst heq
    rw [countM_self, osVal, if_neg (show ¬ (scan + 1 ≤ scan) by omega), countM_single]
    split <;> simp

/-! ## Extension-loop bounds -/

theorem forwardGo_bounds (old new : List Byte) (lastpos : Int) (lastscan scan : Nat) :
    ∀ (fuel i s sf lenf : Nat),
      lastscan + lenf ≤ scan → lastpos + (lenf : Int) ≤ (old.length : Int) →
      lastscan + (forwardGo old new lastpos lastscan scan fuel i s sf lenf).2 ≤ scan ∧
      lastpos + ((forwardGo old new lastpos lastscan scan fuel i s sf lenf).2 : Int) ≤
        (old.length : Int) := by
  intro fuel
  induction fuel with
  | zero => intro i s sf lenf h1 h2; exact ⟨h1, h2⟩
  | succ f ih =>
    intro i s sf lenf h1 h2
    rw [forwardGo]
    split
    · next hcond =>
      dsimp only
      generalize (if getI old (lastpos + (i : Int)) = new.getD (lastscan + i) 0
        then s + 1 else s) = s2
      split
      · exact ih (i + 1) s2 s2 (i + 1) (by omega) (by push_cast; omega)
      · exact ih (i + 1) s2 sf lenf h1 h2
    · exact ⟨h1, h2⟩

theorem backwardGo_bounds (old new : List Byte) (pos lastscan scan : Nat) :
    ∀ (fuel i s sb lenb : Nat),
      lastscan + lenb ≤ scan → lenb ≤ pos →
      lastscan + (backwardGo old new pos lastscan scan fuel i s sb lenb).2 ≤ scan ∧
      (backwardGo old new pos lastscan scan fuel i s sb lenb).2 ≤ pos := by
  intro fuel
  induction fuel with
  | zero => intro i s sb lenb h1 h2; exact ⟨h1, h2⟩
  | succ f ih =>
    intro i s sb lenb h1 h2
    rw [backwardGo]
    split
    · next hcond =>
      dsimp only
      generalize (if old.getD (pos - i) 0 = new.getD (scan - i) 0
        then s + 1 else s) = s2
      split
      · exact ih (i + 1) s2 s2 i (by omega) (by omega)
      · exact ih (i + 1) s2 sb lenb h1 h2
    · exact ⟨h1, h2⟩

theorem overlapGo_le (old new : List Byte) (nb1 ob1 nb2 ob2 : Int) :
    ∀ (fuel i : Nat) (s ss : Int) (lens : Nat), lens ≤ i →
      overlapGo old new nb1 ob1 nb2 ob2 fuel i s ss lens ≤ i + fuel := by
  intro fuel
  induction fuel with
  | zero => intro i s ss lens h; simpa [overlapGo] using h
  | succ f ih =>
    intro i s ss lens h
    rw [overlapGo]
    generalize (if getI new (nb1 + (i : Int)) = getI old (ob1 + (i : Int))
      then s + 1 else s) = s1
    generalize (if getI new (nb2 + (i : Int)) = getI old (ob2 + (i : Int))
      then s1 - 1 else s1) = s2
    split
    · have := ih (i + 1) s2 s2 (i + 1) (le_refl _)
      omega
    · have := ih (i + 1) s2 ss lens (by omega)
      omega

/-! ## The emission step -/

theorem emitLenf_bounds (old new : List Byte) (lastpos : Int) (lastscan scan : Nat)
    (hls : lastscan ≤ scan) (hlO : lastpos ≤ (old.length : Int)) :
    lastscan + emitLenf old new lastpos lastscan scan ≤ scan ∧
    lastpos + (emitLenf old new lastpos lastscan scan : Int) ≤ (old.length : Int) :=
  forwardGo_bounds old new lastpos lastscan scan (scan - lastscan + 1) 0 0 0 0
    (by omega) (by simpa using hlO)

theorem emitLenb_bounds (old new : List Byte) (pos lastscan scan : Nat)
    (hls : lastscan ≤ scan) :
    lastscan + emitLenb old new pos lastscan scan ≤ scan ∧
    emitLenb old new pos lastscan scan ≤ pos ∧
    (scan = new.length → emitLenb old new pos lastscan scan = 0) := by
  rw [emitLenb]
  split
  · next hlt =>
    obtain ⟨hb1, hb2⟩ := backwardGo_bounds old new pos lastscan scan
      (scan - lastscan + 1) 1 0 0 0 (by omega) (by omega)
    exact ⟨hb1, hb2, fun he => by omega⟩
  · exact ⟨by omega, by omega, fun _ => rfl⟩

theorem emitFinal_spec (old new : List Byte) (lastscan : Nat) (lastpos : Int)
    (scan pos : Nat) (hls : lastscan ≤ scan) (_hlo : 0 ≤ lastpos)
    (hlO : lastpos ≤ (old.length : Int)) :
    0 ≤ (emitFinal old new lastscan lastpos scan pos).1 ∧
    (emitFinal old new lastscan lastpos scan pos).1 ≤
      (emitLenf old new lastpos lastscan scan : Int) ∧
    0 ≤ (emitFinal old new lastscan lastpos scan pos).2 ∧
    (emitFinal old new lastscan lastpos scan pos).2 ≤
      (emitLenb old new pos lastscan scan : Int) ∧
    (emitFinal old new lastscan lastpos scan pos).1 +
      (emitFinal old new lastscan lastpos scan pos).2 ≤
      (scan : Int) - (lastscan : Int) ∧
    0 ≤ ((scan : Int) - (emitFinal old new lastscan lastpos scan pos).2) -
      ((lastscan : Int) + (emitFinal old new lastscan lastpos scan pos).1) := by
  obtain ⟨hf1, _hf2⟩ := emitLenf_bounds old new lastpos lastscan scan hls hlO
  obtain ⟨hb1, _hb2, _hb3⟩ := emitLenb_bounds old new pos lastscan scan hls
  rw [emitFinal]
  dsimp only
  split
  · next hovpos =>
    have hlens : emitLens old new lastpos lastscan scan pos
        (emitLenf old new lastpos lastscan scan) (emitLenb old new pos lastscan scan)
        (((lastscan : Int) + (emitLenf old new lastpos lastscan scan : Int)) -
          ((scan : Int) - (emitLenb old new pos lastscan scan : Int))) ≤
        (((lastscan : Int) + (emitLenf old new lastpos lastscan scan : Int)) -
          ((scan : Int) - (emitLenb old new pos lastscan scan : Int))).toNat := by
      rw [emitLens]
      simpa using overlapGo_le old new _ _ _ _ _ 0 0 0 0 (le_refl 0)
    dsimp only
    constructor
    · omega
    constructor
    · omega
    constructor
    · omega
    constructor
    · omega
    constructor
    · omega
    · omega
  · next hovneg =>
    dsimp only
    refine ⟨by omega, by omega, by omega, by omega, by omega, by omega⟩

/-- Full characterization of `emitRecord` under the state invariants:
it succeeds (the fatal consistency check never fires), and the record
and new anchors are as follows, for the final extension lengths
`lenf`, `lenb`. -/
theorem emit_ok (old new : List Byte) (lastscan : Nat) (lastpos : Int)
    (scan len pos : Nat)
    (hlo : 0 ≤ lastpos) (hlO : lastpos ≤ (old.length : Int))
    (hls : lastscan ≤ scan) :
    ∃ (lenf lenb : Nat) (r : EntryRec),
      emitRecord old new lastscan lastpos scan len pos =
        .ok (r, scan - lenb, (pos : Int) - (lenb : Int)) ∧
      lenf + lenb ≤ scan - lastscan ∧
      lastpos + (lenf : Int) ≤ (old.length : Int) ∧
      lenb ≤ pos ∧
      (scan = new.length → lenb = 0) ∧
      r.diff = lenf ∧
      r.extra = scan - lenb - (lastscan + lenf) ∧
      r.seek = ((pos : Int) - (lenb : Int)) - (lastpos + (lenf : Int)) ∧
      r.diffPayload = (List.range lenf).map (fun i =>
        new.getD (lastscan + i) 0 - getI old (lastpos + (i : Int))) ∧
      r.extraPayload =
        (new.drop (lastscan + lenf)).take (scan - lenb - (lastscan + lenf)) := by
  obtain ⟨h1, h2, h3, h4, h5, h6⟩ :=
    emitFinal_spec old new lastscan lastpos scan pos hls hlo hlO
  obtain ⟨hf1, hf2⟩ := emitLenf_bounds old new lastpos lastscan scan hls hlO
  obtain ⟨hb1, hb2, hb3⟩ := emitLenb_bounds old new pos lastscan scan hls
  rw [emitRecord]
  try dsimp only
  set fb := emitFinal old new lastscan lastpos scan pos with hfb
  refine ⟨fb.1.toNat, fb.2.toNat,
    ⟨fb.1.toNat,
     (((scan : Int) - fb.2) - ((lastscan : Int) + fb.1)).toNat,
     ((pos : Int) - fb.2) - (lastpos + fb.1),
     (List.range fb.1.toNat).map (fun i =>
       new.getD (lastscan + i) 0 - getI old (lastpos + (i : Int))),
     (new.drop (lastscan + fb.1.toNat)).take
       ((((scan : Int) - fb.2) - ((lastscan : Int) + fb.1)).toNat)⟩,
    ?_, by omega, by omega, by omega, fun he => by have := hb3 he; omega,
    rfl, ?_, ?_, rfl, ?_⟩
  · rw [if_neg (by omega)]
    have hc1 : ((scan : Int) - fb.2).toNat = scan - fb.2.toNat := by omega
    have hc2 : (pos : Int) - fb.2 = (pos : Int) - ((fb.2.toNat : Nat) : Int) := by omega
    rw [hc1, hc2]
  · show (((scan : Int) - fb.2) - ((lastscan : Int) + fb.1)).toNat =
      scan - fb.2.toNat - (lastscan + fb.1.toNat)
    omega
  · show ((pos : Int) - fb.2) - (lastpos + fb.1) =
      ((pos : Int) - ((fb.2.toNat : Nat) : Int)) - (lastpos + ((fb.1.toNat : Nat) : Int))
    omega
  · show (new.drop (lastscan + fb.1.toNat)).take
      ((((scan : Int) - fb.2) - ((lastscan : Int) + fb.1)).toNat) = _
    have hx : (((scan : Int) - fb.2) - ((lastscan : Int) + fb.1)).toNat =
        scan - fb.2.toNat - (lastscan + fb.1.toNat) := by omega
    rw [hx]

/-! ## The inner loop satisfies its exit specification -/

theorem ite_sa_eq_stuck (c : Prop) [Decidable c] (a1 a2 : Nat) (a3 : Int)
    (a4 b1 b2 : Nat) (b3 : Int) (b4 b5 : Nat) (l p : Nat) (o : Int) (sc : Nat)
    (h : (if c then StepRes.brkStuck a1 a2 a3 a4
          else StepRes.advance b1 b2 b3 b4 b5) = StepRes.brkStuck l p o sc) :
    c ∧ a1 = l ∧ a2 = p ∧ a3 = o ∧ a4 = sc := by
  split at h
  · next hc =>
    injection h with h1 h2 h3 h4
    exact ⟨hc, h1, h2, h3, h4⟩
  · simp at h

theorem ite_sa_eq_advance (c : Prop) [Decidable c] (a1 a2 : Nat) (a3 : Int)
    (a4 b1 b2 : Nat) (b3 : Int) (b4 b5 : Nat) (l p : Nat) (o : Int) (sc n : Nat)
    (h : (if c then StepRes.brkStuck a1 a2 a3 a4
          else StepRes.advance b1 b2 b3 b4 b5) = StepRes.advance l p o sc n) :
    ¬ c ∧ b1 = l ∧ b2 = p ∧ b3 = o ∧ b4 = sc ∧ b5 = n := by
  split at h
  · simp at h
  · next hc =>
    injection h with h1 h2 h3 h4 h5
    exact ⟨hc, h1, h2, h3, h4, h5⟩

theorem fuzzHeld_os_le (a b : Nat) (c d : Int) (e f : Nat)
    (h : fuzzHeld a b c d e f = true) : d ≤ (b : Int) := by
  simp only [fuzzHeld, Bool.and_eq_true, decide_eq_true_eq] at h
  omega

theorem os2_form (old new : List Byte) (off : Int) (scan : Nat) (o : Int) :
    (if matchAt old new off scan then o - 1 else o) =
      o - (if matchAt old new off scan then 1 else 0) := by
  split <;> simp

theorem innerLoop_spec (old new : List Byte) (off : Int) (base : Nat) :
    ∀ (fuel scan len pos : Nat) (os : Int) (scsc num : Nat),
      scan ≤ new.length →
      new.length ≤ scan + fuel →
      os = osVal old new off scan scsc →
      num ≤ scan - base →
      base ≤ scan →
      pos ≤ old.length - 1 →
      InnerExitOk old new off base
        (innerLoop old new off fuel scan len pos os scsc num) := by
  intro fuel
  induction fuel with
  | zero =>
    intro scan len pos os scsc num h1 h2 _h3 _h4 h5 h6
    rw [innerLoop]
    exact ⟨by omega, by omega, h6⟩
  | succ f ih =>
    intro scan len pos os scsc num h1 h2 h3 h4 h5 h6
    rw [innerLoop]
    split
    · next hlt =>
      rcases hres : innerStep old new off scan len pos os scsc num with
        ⟨l, p, o, sc⟩ | ⟨l, p, o, sc⟩ | ⟨l, p, o, sc, n⟩
      · -- accept break
        rw [innerStep] at hres
        have haccum := os_accum old new off scan scsc (searchStep old new scan).1 os h3
        rw [haccum] at hres
        split at hres
        · next hacc =>
          injection hres with e1 e2 e3 e4
          subst e1; subst e2; subst e3; subst e4
          exact ⟨hlt, h5, rfl, by omega, rfl, hacc⟩
        · next hacc =>
          exact absurd hres (by
            apply ite_stuck_advance_ne_accept)
      · -- stuck break
        rw [innerStep] at hres
        have haccum := os_accum old new off scan scsc (searchStep old new scan).1 os h3
        rw [haccum] at hres
        split at hres
        · simp at hres
        · next hacc =>
          rw [os2_form] at hres
          obtain ⟨hc, e1, e2, e3, e4⟩ := ite_sa_eq_stuck _ _ _ _ _ _ _ _ _ _ _ _ _ _ hres
          subst e1; subst e2; subst e3; subst e4
          have hfuzz : fuzzHeld len (searchStep old new scan).1 os
              ((countM old new off scan
                  (max scsc (scan + (searchStep old new scan).1)) : Int) -
                (if matchAt old new off scan then 1 else 0))
              pos (searchStep old new scan).2 = true := by
            by_contra hne
            rw [Bool.not_eq_true] at hne
            rw [if_neg (by simp [hne])] at hc
            omega
          have hnum : num + 1 > 100 := by
            rw [if_pos hfuzz] at hc
            exact hc
          refine ⟨hlt, by omega, rfl, by omega, rfl, hacc, ?_⟩
          exact fuzzHeld_os_le _ _ _ _ _ _ hfuzz
      · -- advance
        rw [innerStep] at hres
        have haccum := os_accum old new off scan scsc (searchStep old new scan).1 os h3
        rw [haccum] at hres
        split at hres
        · simp at hres
        · next hacc =>
          rw [os2_form] at hres
          obtain ⟨hnc, e1, e2, e3, e4, e5⟩ :=
            ite_sa_eq_advance _ _ _ _ _ _ _ _ _ _ _ _ _ _ _ hres
          subst e1; subst e2; subst e3; subst e4; subst e5
          have hgoal := ih (scan + 1) (searchStep old new scan).1
            (searchStep old new scan).2
            ((countM old new off scan
                (max scsc (scan + (searchStep old new scan).1)) : Int) -
              (if matchAt old new off scan then 1 else 0))
            (max scsc (scan + (searchStep old new scan).1))
            (if fuzzHeld len (searchStep old new scan).1 os
                ((countM old new off scan
                    (max scsc (scan + (searchStep old new scan).1)) : Int) -
                  (if matchAt old new off scan then 1 else 0))
                pos (searchStep old new scan).2 = true
              then num + 1 else 0)
            (by omega) (by omega)
            (os_dec old new off scan _ (by omega))
            (by repeat' split
                all_goals omega)
            (by omega)
            (searchStep_pos_le old new scan)
          exact hgoal
    · next hge =>
      exact ⟨by omega, by omega, h6⟩

/-! ## No emitted record is all-zero -/

theorem getD_drop (l : List Byte) (n i : Nat) :
    (l.drop n).getD i 0 = l.getD (n + i) 0 := by
  rw [List.getD_eq_getElem?_getD, List.getD_eq_getElem?_getD, List.getElem?_drop]

theorem getD_take (l : List Byte) (n i : Nat) (h : i < n) :
    (l.take n).getD i 0 = l.getD i 0 := by
  rw [List.getD_eq_getElem?_getD, List.getD_eq_getElem?_getD, List.getElem?_take,
    if_pos h]

/-- When the search result is aligned with the previous offset
(`pos = scan + off`), every byte of the found match also scores at the
previous offset: the count over the match window is the whole match
length, and the first byte matches when the match is nonempty. -/
theorem aligned_match_count (old new : List Byte) (off : Int) (scan : Nat)
    (_hq : scan < new.length)
    (halign : (((searchStep old new scan).2 : Nat) : Int) = (scan : Int) + off) :
    countM old new off scan (scan + (searchStep old new scan).1) =
      (searchStep old new scan).1 ∧
    (1 ≤ (searchStep old new scan).1 → matchAt old new off scan = true) := by
  set p := (searchStep old new scan).2 with hp
  set l := (searchStep old new scan).1 with hl
  have hfst := searchStep_fst old new scan
  rw [← hp, ← hl] at hfst
  have hlenb : l ≤ ((old.take (old.length - 1)).drop p).length := by
    rw [hfst]; exact match_len_le_left _ _
  have hlen : ((old.take (old.length - 1)).drop p).length =
      (old.length - 1) - p := by simp
  have hkey : ∀ k, k < l → matchAt old new off (scan + k) = true := by
    intro k hk
    have heq := lcp_getD ((old.take (old.length - 1)).drop p) (new.drop scan) k
      (by rw [← match_len_eq_lcp, ← hfst]; exact hk)
    rw [getD_drop, getD_drop] at heq
    have hpk : p + k < old.length - 1 := by omega
    rw [getD_take old (old.length - 1) (p + k) hpk] at heq
    rw [matchAt]
    have hidx : ((scan + k : Nat) : Int) + off = ((p + k : Nat) : Int) := by
      push_cast
      omega
    rw [hidx]
    have hlt : ((p + k : Nat) : Int) < (old.length : Int) := by
      push_cast; omega
    simp only [getI, Bool.and_eq_true, decide_eq_true_eq, beq_iff_eq]
    refine ⟨hlt, ?_⟩
    rw [Int.toNat_natCast]
    rw [heq]
  constructor
  · rw [countM, show scan + l - scan = l by omega]
    have hall : ∀ a ∈ List.range' scan l, matchAt old new off a = true := by
      intro a ha
      rw [List.mem_range'_1] at ha
      have := hkey (a - scan) (by omega)
      rwa [show scan + (a - scan) = a by omega] at this
    have h2 := List.countP_eq_length.mpr hall
    rwa [List.length_range'] at h2
  · intro h1
    have := hkey 0 h1
    rwa [Nat.add_zero] at this

/-- A zero-length search result cannot sit at position `|old| - 1`
unless that position is the sentinel `0`: the returned position is
either taken from the `en` end of the final interval — whose every
possible value is the initial `en = |old|` (where the suffix list holds
the sentinel `0`) or a midpoint that compared `Greater` (impossible for
the empty suffix) — or from `st` with a strictly longer match. -/
theorem searchGo_zero_pos (sorted : List Nat) (old q : List Byte) :
    ∀ fuel st en, en - st < fuel →
      (sorted.getD en 0 = 0 ∨
        min_memcmp (old.drop (sorted.getD en 0)) q = Ordering.gt) →
      (searchGo sorted old q fuel st en).1 = 0 →
      ((searchGo sorted old q fuel st en).2 = 0 ∨
        min_memcmp (old.drop ((searchGo sorted old q fuel st en).2)) q =
          Ordering.gt) := by
  intro fuel
  induction fuel with
  | zero => intro st en h _ _; omega
  | succ f ih =>
    intro st en h hQ hzero
    rw [searchGo] at hzero ⊢
    by_cases hlt : en - st < 2
    · rw [if_pos hlt] at hzero ⊢
      dsimp only at hzero ⊢
      by_cases hxy : match_len (old.drop (sorted.getD st 0)) q >
          match_len (old.drop (sorted.getD en 0)) q
      · rw [if_pos hxy] at hzero ⊢
        dsimp only at hzero
        omega
      · rw [if_neg hxy] at hzero ⊢
        dsimp only at hzero ⊢
        rcases hQ with hQ | hQ
        · left; exact hQ
        · right; exact hQ
    · rw [if_neg hlt] at hzero ⊢
      dsimp only at hzero ⊢
      by_cases hmid : min_memcmp (old.drop (sorted.getD (st + (en - st) / 2) 0)) q ≠
          Ordering.gt
      · rw [if_pos hmid] at hzero ⊢
        exact ih _ _ (by omega) hQ hzero
      · rw [if_neg hmid] at hzero ⊢
        exact ih _ _ (by omega) (Or.inr (not_ne_iff.mp hmid)) hzero

theorem min_memcmp_nil (q : List Byte) : min_memcmp [] q = Ordering.eq := by
  rw [min_memcmp]
  simp only [List.length_nil, Nat.zero_min, List.take_zero]
  rfl

/-- Consolidated facts every inner-loop exit provides about its
`(scan, len, pos, oldscore)` fields. -/
theorem exit_facts (old new : List Byte) (off : Int) (base : Nat)
    (ex : InnerExit) (s l p : Nat) (os : Int)
    (hok : InnerExitOk old new off base ex)
    (hfl : ex.fields = (s, l, p, os)) :
    base ≤ s ∧ p ≤ old.length - 1 ∧
      (s = new.length ∨ (s < new.length ∧ (l, p) = searchStep old new s)) := by
  cases ex with
  | accept s0 l0 p0 os0 sc0 =>
    simp only [InnerExit.fields, Prod.mk.injEq] at hfl
    obtain ⟨e1, e2, e3, e4⟩ := hfl
    subst e1; subst e2; subst e3; subst e4
    obtain ⟨h1, h2, h3, _⟩ := hok
    refine ⟨h2, ?_, Or.inr ⟨h1, h3⟩⟩
    have := searchStep_pos_le old new s0
    rw [← h3] at this
    exact this
  | stuck s0 l0 p0 os0 sc0 =>
    simp only [InnerExit.fields, Prod.mk.injEq] at hfl
    obtain ⟨e1, e2, e3, e4⟩ := hfl
    subst e1; subst e2; subst e3; subst e4
    obtain ⟨h1, h2, h3, _⟩ := hok
    refine ⟨by omega, ?_, Or.inr ⟨h1, h3⟩⟩
    have := searchStep_pos_le old new s0
    rw [← h3] at this
    exact this
  | done s0 l0 p0 os0 sc0 =>
    simp only [InnerExit.fields, Prod.mk.injEq] at hfl
    obtain ⟨e1, e2, e3, e4⟩ := hfl
    subst e1; subst e2; subst e3; subst e4
    obtain ⟨h1, h2, h3⟩ := hok
    exact ⟨h2, h3, Or.inl h1⟩

/-- Under the outer-loop invariants, the record an emission produces is
never all-zero.  An all-zero record would force the backward extension
to swallow the whole window back to the previous anchors, aligning the
fresh search result with the previous offset — and each exit form of
the inner loop rules that out: a `done` exit would need `lastscan` at
`|new|`, an accepting exit would have `len = oldscore` (no emission),
and a stuck exit would need a zero-length match whose position the
binary search cannot produce. -/
theorem record_nonzero (old new : List Byte) (lastscan : Nat) (lastpos : Int)
    (scan1 : Nat) (ex : InnerExit) (s l p : Nat) (os : Int)
    (hlt : lastscan < new.length)
    (hlo : 0 ≤ lastpos) (hlO : lastpos ≤ (old.length : Int))
    (hls1 : lastscan ≤ scan1)
    (hok : InnerExitOk old new (lastpos - (lastscan : Int)) scan1 ex)
    (hfl : ex.fields = (s, l, p, os))
    (hemit : (l : Int) ≠ os ∨ s = new.length)
    (r : EntryRec) (ls : Nat) (lp : Int)
    (hrec : emitRecord old new lastscan lastpos s l p = .ok (r, ls, lp)) :
    ¬ isZeroRec r := by
  intro hzero
  have hss : lastscan ≤ s := by
    have := (exit_facts old new _ _ ex s l p os hok hfl).1
    omega
  obtain ⟨lenf, lenb, r', he, hfb, hfO, hbp, hb0, hd, hx, hs, _hdp, _hxp⟩ :=
    emit_ok old new lastscan lastpos s l p hlo hlO hss
  rw [hrec] at he
  simp only [Except.ok.injEq, Prod.mk.injEq] at he
  obtain ⟨hr, -, -⟩ := he
  subst hr
  obtain ⟨hz1, hz2, hz3⟩ := hzero
  rw [hd] at hz1
  rw [hx] at hz2
  rw [hs] at hz3
  subst hz1
  -- the backward extension swallowed the whole window
  have hw : (lenb : Int) = (s : Int) - (lastscan : Int) := by omega
  have halignp : (p : Int) = (s : Int) + (lastpos - (lastscan : Int)) := by omega
  cases ex with
  | done s0 l0 p0 os0 sc0 =>
    simp only [InnerExit.fields, Prod.mk.injEq] at hfl
    obtain ⟨e1, e2, e3, e4⟩ := hfl
    subst e1; subst e2; subst e3; subst e4
    obtain ⟨h1, _, _⟩ := hok
    have := hb0 h1
    omega
  | accept s0 l0 p0 os0 sc0 =>
    simp only [InnerExit.fields, Prod.mk.injEq] at hfl
    obtain ⟨e1, e2, e3, e4⟩ := hfl
    subst e1; subst e2; subst e3; subst e4
    obtain ⟨hslt, _hbase, hsp, hsc, hos, hacc⟩ := hok
    have hlne : (l0 : Int) ≠ os0 := by
      rcases hemit with h | h
      · exact h
      · omega
    have hp2 : (searchStep old new s0).2 = p0 := by rw [← hsp]
    have hp1 : (searchStep old new s0).1 = l0 := by rw [← hsp]
    obtain ⟨hcnt, _⟩ := aligned_match_count old new (lastpos - (lastscan : Int)) s0
      hslt (by rw [hp2]; omega)
    rw [hp1] at hcnt
    have hmono := countM_append old new (lastpos - (lastscan : Int)) s0 (s0 + l0) sc0
      (by omega) hsc
    rw [hcnt] at hmono
    rcases hacc with ⟨heq, _⟩ | hgt
    · exact hlne (by rw [heq])
    · omega
  | stuck s0 l0 p0 os0 sc0 =>
    simp only [InnerExit.fields, Prod.mk.injEq] at hfl
    obtain ⟨e1, e2, e3, e4⟩ := hfl
    subst e1; subst e2; subst e3; subst e4
    obtain ⟨hslt, hbase, hsp, hsc, hos, hnacc, hosle⟩ := hok
    have hlne : (l0 : Int) ≠ os0 := by
      rcases hemit with h | h
      · exact h
      · omega
    have hp2 : (searchStep old new s0).2 = p0 := by rw [← hsp]
    have hp1 : (searchStep old new s0).1 = l0 := by rw [← hsp]
    obtain ⟨hcnt, hfirst⟩ := aligned_match_count old new (lastpos - (lastscan : Int)) s0
      hslt (by rw [hp2]; omega)
    rw [hp1] at hcnt
    have hmono := countM_append old new (lastpos - (lastscan : Int)) s0 (s0 + l0) sc0
      (by omega) hsc
    rw [hcnt] at hmono
    rw [not_or] at hnacc
    obtain ⟨hn1, _hn2⟩ := hnacc
    by_cases hl1 : 1 ≤ l0
    · have hm := hfirst (by rw [hp1]; exact hl1)
      rw [if_pos hm] at hos
      have hncnt : (l0 : Int) ≠ (countM old new (lastpos - (lastscan : Int)) s0 sc0 : Int) := by
        intro h
        exact hn1 ⟨h, by omega⟩
      omega
    · have hl0 : l0 = 0 := by omega
      subst hl0
      have hm : matchAt old new (lastpos - (lastscan : Int)) s0 = true := by
        by_contra hf
        rw [Bool.not_eq_true] at hf
        rw [if_neg (by simp [hf])] at hos
        omega
      rw [if_pos hm] at hos
      simp only [matchAt, Bool.and_eq_true, decide_eq_true_eq, beq_iff_eq] at hm
      rw [← halignp] at hm
      rw [getI, Int.toNat_natCast] at hm
      have hpO : p0 < old.length := by exact_mod_cast hm.1
      have hsfst := searchStep_fst old new s0
      rw [hp1, hp2] at hsfst
      have hqlen : 1 ≤ (new.drop s0).length := by
        rw [List.length_drop]; omega
      have hpe : old.length - 1 ≤ p0 := by
        by_contra hcon
        push_neg at hcon
        have htlen : 1 ≤ ((old.take (old.length - 1)).drop p0).length := by
          simp only [List.length_drop, List.length_take]
          omega
        have h1b : ((old.take (old.length - 1)).drop p0).getD 0 0 =
            (new.drop s0).getD 0 0 := by
          rw [getD_drop, getD_take old (old.length - 1) (p0 + 0) (by omega), getD_drop]
          simpa using hm.2
        have hge1 : 1 ≤ lcp ((old.take (old.length - 1)).drop p0) (new.drop s0) := by
          apply lcp_ge _ _ 1 htlen hqlen
          intro i hi
          have hi0 : i = 0 := by omega
          subst hi0
          exact h1b
        rw [← match_len_eq_lcp, ← hsfst] at hge1
        omega
      have hpeq : p0 = old.length - 1 := by omega
      have hsg : searchGo (suffixList old) (old.take (old.length - 1)) (new.drop s0)
          (old.length - 0 + 1) 0 old.length = (0, p0) := hsp.symm
      have hz := searchGo_zero_pos (suffixList old) (old.take (old.length - 1))
        (new.drop s0) (old.length - 0 + 1) 0 old.length (by omega)
        (Or.inl (suffixList_getD_len old)) (by rw [hsg])
      rw [hsg] at hz
      have hTnil : (old.take (old.length - 1)).drop p0 = [] := by
        apply List.drop_eq_nil_of_le
        simp only [List.length_take]
        omega
      rcases hz with hz | hz
      · -- the returned position is the sentinel 0: old has a single byte
        simp only at hz
        omega
      · simp only at hz
        rw [hTnil, min_memcmp_nil] at hz
        exact absurd hz (by decide)


theorem getD_map_range (f : Nat → Byte) (n i : Nat) (h : i < n) :
    ((List.range n).map f).getD i 0 = f i := by
  rw [List.getD_eq_getElem?_getD, List.getElem?_map, List.getElem?_range h]
  rfl

/-- The outer scanning loop preserves the checkpoint invariant and
produces a valid record list: whatever it returns, followed by the
terminator, reconstructs `new` from the anchors `(lastpos, lastscan)`
it started at. -/
theorem outerGo_spec (old new : List Byte) :
    ∀ (fuel scan len pos : Nat) (lastoffset : Int) (lastscan : Nat) (lastpos : Int)
      (recs : List EntryRec),
      StateInv old new scan len pos lastoffset lastscan lastpos →
      outerGo old new fuel scan len pos lastoffset lastscan lastpos =
        some (.ok recs) →
      RecsOk old new lastpos lastscan (recs ++ [endingRecord]) := by
  intro fuel
  induction fuel with
  | zero =>
    intro scan len pos lastoffset lastscan lastpos recs _hSI hrun
    rw [outerGo] at hrun
    exact absurd hrun (by simp)
  | succ f ih =>
    intro scan len pos lastoffset lastscan lastpos recs hSI hrun
    obtain ⟨hSI1, hSI2, hSI3, hSI4, hSI5, hSI6, hSI7⟩ := hSI
    rw [outerGo] at hrun
    by_cases hscan : scan < new.length
    · rw [if_pos hscan] at hrun
      dsimp only at hrun
      have hok := innerLoop_spec old new lastoffset (scan + len)
        (new.length - (scan + len) + 1) (scan + len) len pos 0 (scan + len) 0
        (hSI5 hscan) (by omega)
        (by rw [osVal, if_pos le_rfl, countM_self]; rfl)
        (by omega) le_rfl hSI7
      rcases hfl : (innerLoop old new lastoffset (new.length - (scan + len) + 1)
          (scan + len) len pos 0 (scan + len) 0).fields with ⟨s, l, p, os⟩
      rw [hfl] at hrun
      dsimp only at hrun
      obtain ⟨hbase, hpb, hdisj⟩ :=
        exit_facts old new lastoffset (scan + len) _ s l p os hok hfl
      have hs_le : s ≤ new.length := by
        rcases hdisj with h | ⟨h, _⟩ <;> omega
      have hll : s < new.length → s + l ≤ new.length := by
        intro hslt
        rcases hdisj with h | ⟨_, hsp⟩
        · omega
        · have := searchStep_len_le old new s
          rw [← hsp] at this
          simp only at this
          omega
      split at hrun
      · next hemit =>
        have hss : lastscan ≤ s := by omega
        obtain ⟨lenf, lenb, r, he, hfb, hfO, hbp, hb0, hd, hx, hsk, hdp, hxp⟩ :=
          emit_ok old new lastscan lastpos s l p hSI2 hSI3 hss
        rw [he] at hrun
        dsimp only at hrun
        rcases hrec2 : outerGo old new f s l p ((p : Int) - (s : Int))
            (s - lenb) ((p : Int) - (lenb : Int)) with _ | er
        · rw [hrec2] at hrun
          exact absurd hrun (by simp)
        · rw [hrec2] at hrun
          cases er with
          | error e => exact absurd hrun (by simp)
          | ok rest =>
            simp only [Option.some.injEq, Except.ok.injEq] at hrun
            have hSI' : StateInv old new s l p ((p : Int) - (s : Int))
                (s - lenb) ((p : Int) - (lenb : Int)) := by
              refine ⟨by omega, by omega, by omega, by omega, hll, ?_, hpb⟩
              intro hge
              have hse : s = new.length := by omega
              have := hb0 hse
              omega
            have htail := ih s l p ((p : Int) - (s : Int)) (s - lenb)
              ((p : Int) - (lenb : Int)) rest hSI' hrec2
            rw [← hrun, List.cons_append]
            refine RecsOk.cons lastpos lastscan r (rest ++ [endingRecord])
              ?_ ?_ ?_ hSI2 ?_ ?_ ?_ ?_ ?_ ?_ ?_
            · exact record_nonzero old new lastscan lastpos (scan + len) _
                s l p os (by omega) hSI2 hSI3 (by omega)
                (by rw [← hSI1]; exact hok) hfl hemit r (s - lenb)
                ((p : Int) - (lenb : Int)) he
            · rw [hdp, hd]
              simp
            · rw [hxp, hx]
              simp only [List.length_take, List.length_drop]
              omega
            · rw [hd]
              exact hfO
            · rw [hd, hsk]
              omega
            · rw [hd, hsk]
              omega
            · rw [hd, hx]
              omega
            · intro i hi
              rw [hd] at hi
              rw [hdp, getD_map_range _ _ _ hi]
              have hcast : (lastpos + (i : Int)).toNat = lastpos.toNat + i := by
                omega
              rw [getI, hcast]
              ring
            · intro i hi
              rw [hx] at hi
              rw [hxp, hd, getD_take _ _ _ hi, getD_drop]
            · have hce : lastpos + (r.diff : Int) + r.seek =
                  (p : Int) - (lenb : Int) := by
                rw [hd, hsk]
                ring
              have hwe : lastscan + r.diff + r.extra = s - lenb := by
                rw [hd, hx]
                omega
              rw [hce, hwe]
              exact htail
      · next hnemit =>
        rw [not_or] at hnemit
        apply ih s l p lastoffset lastscan lastpos recs ?_ hrun
        refine ⟨hSI1, hSI2, hSI3, by omega, hll, ?_, hpb⟩
        intro hge
        exact absurd (by omega : s = new.length) hnemit.2
    · rw [if_neg hscan] at hrun
      simp only [Option.some.injEq, Except.ok.injEq] at hrun
      have h6 := hSI6 (by omega)
      rw [← hrun, List.nil_append, h6]
      exact RecsOk.term lastpos


/-! ## Wire-format round-trip lemmas -/

theorem u64le_length (n : Nat) : (u64le n).length = 8 := rfl

theorem i64le_length (s : Int) : (i64le s).length = 8 := rfl

theorem parseU64_u64le (n : Nat) (rest : List Byte) (h : n < 2 ^ 64) :
    parseU64 (u64le n ++ rest) = n := by
  simp only [u64le, parseU64, List.cons_append, List.getD_cons_zero,
    List.getD_cons_succ]
  omega

theorem parseU64_u64le_nil (n : Nat) (h : n < 2 ^ 64) : parseU64 (u64le n) = n := by
  rw [← List.append_nil (u64le n)]
  exact parseU64_u64le n [] h

theorem parseI64_i64le_nil (s : Int) (h1 : -(2 ^ 63) ≤ s) (h2 : s < 2 ^ 63) :
    parseI64 (i64le s) = s := by
  rw [i64le, parseI64]
  have hm : (0 : Int) ≤ s % (2 ^ 64 : Int) := Int.emod_nonneg s (by norm_num)
  have hm2 : s % (2 ^ 64 : Int) < 2 ^ 64 := Int.emod_lt_of_pos s (by norm_num)
  rw [parseU64_u64le_nil _ (by omega)]
  split <;> omega

theorem readExact_append (A B : List Byte) (n : Nat) (h : A.length = n) :
    readExact (A ++ B) n = .ok (A, B) := by
  subst h
  rw [readExact, if_pos (by simp), List.take_left, List.drop_left]

theorem drop8_u64le (n : Nat) (X : List Byte) : (u64le n ++ X).drop 8 = X := by
  rw [show (8 : Nat) = (u64le n).length from rfl, List.drop_left]

theorem drop16_hdr (d e : Nat) (X : List Byte) :
    (u64le d ++ (u64le e ++ X)).drop 16 = X := by
  rw [← List.append_assoc,
    show (16 : Nat) = (u64le d ++ u64le e).length from rfl, List.drop_left]

theorem serializeRecord_split (r : EntryRec) (B : List Byte) :
    serializeRecord r ++ B =
      (u64le r.diff ++ (u64le r.extra ++ i64le r.seek)) ++
        (r.diffPayload ++ (r.extraPayload ++ B)) := by
  rw [serializeRecord]
  simp only [List.append_assoc]

theorem recsBytes_cons (r : EntryRec) (rs : List EntryRec) :
    recsBytes (r :: rs) = serializeRecord r ++ recsBytes rs := by
  simp [recsBytes]

theorem recsBytes_term : recsBytes [endingRecord] = serializeRecord endingRecord := by
  simp [recsBytes]

theorem length_le_recsBytes (rs : List EntryRec) :
    rs.length ≤ (recsBytes rs).length := by
  induction rs with
  | nil => simp [recsBytes]
  | cons r rs ih =>
    rw [recsBytes_cons, List.length_append, List.length_cons]
    have h1 : 1 ≤ (serializeRecord r).length := by
      rw [serializeRecord]
      simp only [List.length_append, u64le_length, i64le_length]
      omega
    omega

theorem getD_append_left (A B : List Byte) (i : Nat) (h : i < A.length) :
    (A ++ B).getD i 0 = A.getD i 0 := by
  rw [List.getD_eq_getElem?_getD, List.getD_eq_getElem?_getD,
    List.getElem?_append_left h]

theorem getD_append_right (A B : List Byte) (i : Nat) (h : A.length ≤ i) :
    (A ++ B).getD i 0 = B.getD (i - A.length) 0 := by
  rw [List.getD_eq_getElem?_getD, List.getD_eq_getElem?_getD,
    List.getElem?_append_right h]

theorem getD_zipWith_add (as bs : List Byte) (i : Nat) (hia : i < as.length)
    (hib : i < bs.length) :
    (List.zipWith (· + ·) as bs).getD i 0 = as.getD i 0 + bs.getD i 0 := by
  rw [List.getD_eq_getElem _ _ (by rw [List.length_zipWith]; omega),
    List.getElem_zipWith, List.getD_eq_getElem _ _ hia, List.getD_eq_getElem _ _ hib]

/-- A list that agrees pointwise with `new` from position `written`
extends to the corresponding drop of `new`. -/
theorem eq_drop_of_pointwise (new : List Byte) (written : Nat) (L : List Byte)
    (h : written + L.length ≤ new.length)
    (hp : ∀ i, i < L.length → L.getD i 0 = new.getD (written + i) 0) :
    L ++ new.drop (written + L.length) = new.drop written := by
  have hlen : (L ++ new.drop (written + L.length)).length =
      (new.drop written).length := by
    simp only [List.length_append, List.length_drop]
    omega
  apply List.ext_getElem hlen
  intro i h1 h2
  have hi2 : i < new.length - written := by simpa using h2
  by_cases hc : i < L.length
  · rw [List.getElem_append_left hc]
    have hgl := hp i hc
    rw [List.getD_eq_getElem L 0 hc] at hgl
    have hw : written + i < new.length := by omega
    rw [List.getD_eq_getElem new 0 hw] at hgl
    rw [hgl, List.getElem_drop]
  · push_neg at hc
    rw [List.getElem_append_right hc, List.getElem_drop, List.getElem_drop]
    have hidx : written + L.length + (i - L.length) = written + i := by omega
    simp only [hidx]

/-- C4 (amended): *any* unexpected EOF on the sub-patch header read —
at its start or partway through, i.e. whenever fewer than 16 bytes
remain — is the normal termination signal and yields success, while a
read shortage after a completely read sub-patch header is reported as
an error: a truncated entry header, a shortage inside the `diff`
payload, and a shortage inside the `extra` payload all surface the
`UnexpectedEof`. -/
theorem apply_chunked_eof_behavior :
    (∀ (old rest : List Byte) (written fuel : Nat), rest.length < 16 → 1 ≤ fuel →
      applyChunkedGo old fuel rest written = .ok []) ∧
    (∀ (old tail : List Byte) (size written fuel : Nat), tail.length < 24 → 1 ≤ fuel →
      applyChunkedGo old fuel (DDELTA_MAGIC ++ u64le size ++ tail) written =
        .error .ioUnexpectedEof) ∧
    (∀ (old rest : List Byte) (size written fuel d e : Nat) (sk : Int),
      d < 2 ^ 64 → e < 2 ^ 64 → -(2 ^ 63) ≤ sk → sk < 2 ^ 63 →
      ¬ (d = 0 ∧ e = 0 ∧ sk = 0) → rest.length < d → 1 ≤ fuel →
      applyChunkedGo old fuel
        (DDELTA_MAGIC ++ u64le size ++ (u64le d ++ (u64le e ++ (i64le sk ++ rest))))
        written = .error .ioUnexpectedEof) ∧
    (∀ (old dp tail : List Byte) (size written fuel e : Nat) (sk : Int),
      dp.length < 2 ^ 64 → e < 2 ^ 64 → -(2 ^ 63) ≤ sk → sk < 2 ^ 63 →
      ¬ (dp.length = 0 ∧ e = 0 ∧ sk = 0) → tail.length < e → 1 ≤ fuel →
      applyChunkedGo old fuel
        (DDELTA_MAGIC ++ u64le size ++
          (u64le dp.length ++ (u64le e ++ (i64le sk ++ (dp ++ tail)))))
        written = .error .ioUnexpectedEof) := by
  refine ⟨?_, ?_, ?_, ?_⟩
  · intro old rest written fuel hlen hfuel
    cases fuel with
    | zero => omega
    | succ f =>
      rw [applyChunkedGo]
      rw [readExact, if_neg (by omega)]
  · intro old tail size written fuel hlen hfuel
    cases fuel with
    | zero => omega
    | succ f =>
      rw [applyChunkedGo, readExact_append _ _ 16 (by rfl)]
      dsimp only
      have hmagic : (DDELTA_MAGIC ++ u64le size).take 8 = DDELTA_MAGIC := by
        rw [show (8 : Nat) = (DDELTA_MAGIC : List Byte).length from rfl,
          List.take_left]
      rw [hmagic, applyWithHeader, if_neg (fun hc => hc rfl)]
      generalize parseU64 ((DDELTA_MAGIC ++ u64le size).drop 8) = sz
      have happly : applyGo old (tail.length + 1) tail (written : Int) sz 0 =
          .error .ioUnexpectedEof := by
        rw [applyGo, readExact, if_neg (by omega)]
      rw [happly]
  · intro old rest size written fuel d e sk hd he hs1 hs2 hnz hshort hfuel
    cases fuel with
    | zero => omega
    | succ f =>
      rw [applyChunkedGo, readExact_append _ _ 16 (by rfl)]
      dsimp only
      have hmagic : (DDELTA_MAGIC ++ u64le size).take 8 = DDELTA_MAGIC := by
        rw [show (8 : Nat) = (DDELTA_MAGIC : List Byte).length from rfl,
          List.take_left]
      rw [hmagic, applyWithHeader, if_neg (fun hc => hc rfl)]
      generalize parseU64 ((DDELTA_MAGIC ++ u64le size).drop 8) = sz
      have hX : (u64le d ++ (u64le e ++ (i64le sk ++ rest)) : List Byte) =
          (u64le d ++ (u64le e ++ i64le sk)) ++ rest := by
        simp [List.append_assoc]
      have happly : applyGo old ((u64le d ++ (u64le e ++ (i64le sk ++ rest))).length + 1)
          (u64le d ++ (u64le e ++ (i64le sk ++ rest))) (written : Int) sz 0 =
          .error .ioUnexpectedEof := by
        rw [hX, applyGo, readExact_append _ _ 24 (by rfl)]
        dsimp only
        rw [parseU64_u64le _ _ hd, drop8_u64le, parseU64_u64le _ _ he, drop16_hdr,
          parseI64_i64le_nil _ hs1 hs2]
        rw [if_neg hnz]
        rw [readExact, if_neg (by omega)]
      rw [happly]
  · intro old dp tail size written fuel e sk hd he hs1 hs2 hnz hshort hfuel
    cases fuel with
    | zero => omega
    | succ f =>
      rw [applyChunkedGo, readExact_append _ _ 16 (by rfl)]
      dsimp only
      have hmagic : (DDELTA_MAGIC ++ u64le size).take 8 = DDELTA_MAGIC := by
        rw [show (8 : Nat) = (DDELTA_MAGIC : List Byte).length from rfl,
          List.take_left]
      rw [hmagic, applyWithHeader, if_neg (fun hc => hc rfl)]
      generalize parseU64 ((DDELTA_MAGIC ++ u64le size).drop 8) = sz
      have hX : (u64le dp.length ++ (u64le e ++ (i64le sk ++ (dp ++ tail))) : List Byte) =
          (u64le dp.length ++ (u64le e ++ i64le sk)) ++ (dp ++ tail) := by
        simp [List.append_assoc]
      have happly : applyGo old
          ((u64le dp.length ++ (u64le e ++ (i64le sk ++ (dp ++ tail)))).length + 1)
          (u64le dp.length ++ (u64le e ++ (i64le sk ++ (dp ++ tail))))
          (written : Int) sz 0 = .error .ioUnexpectedEof := by
        rw [hX, applyGo, readExact_append _ _ 24 (by rfl)]
        dsimp only
        rw [parseU64_u64le _ _ hd, drop8_u64le, parseU64_u64le _ _ he, drop16_hdr,
          parseI64_i64le_nil _ hs1 hs2]
        rw [if_neg hnz]
        rw [readExact_append _ _ _ (by rfl)]
        dsimp only
        by_cases hoc : 0 ≤ (written : Int) ∧
            ((written : Int)).toNat + dp.length ≤ old.length
        · rw [readOld, if_pos hoc]
          dsimp only
          rw [readExact, if_neg (by omega)]
        · rw [readOld, if_neg hoc]
      rw [happly]

theorem apply_chunked_eof_behavior_witness :
    applyChunkedGo [] 1 [9, 9] 0 = .ok [] ∧
    applyChunkedGo [] 1 (DDELTA_MAGIC ++ u64le 5 ++ [1, 2, 3]) 0 =
      .error .ioUnexpectedEof ∧
    applyChunkedGo [] 1
      (DDELTA_MAGIC ++ u64le 0 ++ (u64le 1 ++ (u64le 0 ++ (i64le 0 ++ [])))) 0 =
      .error .ioUnexpectedEof ∧
    applyChunkedGo [2] 1
      (DDELTA_MAGIC ++ u64le 1 ++ (u64le 1 ++ (u64le 1 ++ (i64le 0 ++ ([3] ++ [])))))
      0 = .error .ioUnexpectedEof :=
  ⟨apply_chunked_eof_behavior.1 [] [9, 9] 0 1 (by decide) (by decide),
   apply_chunked_eof_behavior.2.1 [] [1, 2, 3] 5 0 1 (by decide) (by decide),
   apply_chunked_eof_behavior.2.2.1 [] [] 0 0 1 1 0 0 (by decide) (by decide)
     (by decide) (by decide) (by decide) (by decide) (by decide),
   apply_chunked_eof_behavior.2.2.2 [2] [3] [] 1 0 1 1 0 (by decide) (by decide)
     (by decide) (by decide) (by decide) (by decide) (by decide)⟩

/-! ## The applier inverts a valid record list -/

/-- `applyGo` on the byte stream of a valid record list reconstructs
`new.drop written` and leaves exactly the trailing bytes. -/
theorem applyGo_spec (old new : List Byte)
    (hO : old.length < 2 ^ 63) (hN : new.length < 2 ^ 64) :
    ∀ (recs : List EntryRec) (cur : Int) (written : Nat),
      RecsOk old new cur written recs →
      ∀ (fuel : Nat) (tail : List Byte), recs.length < fuel →
        applyGo old fuel (recsBytes recs ++ tail) cur new.length written =
          .ok (new.drop written, tail) := by
  intro recs cur written hro
  induction hro with
  | term cur =>
    intro fuel tail hf
    cases fuel with
    | zero => simp at hf
    | succ f =>
      rw [applyGo, recsBytes_term, serializeRecord_split,
        readExact_append _ _ 24 (by rfl)]
      dsimp only [endingRecord]
      rw [parseU64_u64le _ _ (by norm_num), drop8_u64le,
        parseU64_u64le _ _ (by norm_num), drop16_hdr,
        parseI64_i64le_nil _ (by norm_num) (by norm_num)]
      rw [if_pos ⟨rfl, rfl, rfl⟩, if_pos rfl, List.drop_length]
      rfl
  | cons cur written r rest hnz hdpl hepl hcur hcd hsk1 hsk2 hwr hdiffp hextrap
      htail ih =>
    intro fuel tail hf
    cases fuel with
    | zero => simp at hf
    | succ f =>
      have hd64 : r.diff < 2 ^ 64 := by omega
      have he64 : r.extra < 2 ^ 64 := by omega
      have hsk1' : -(2 ^ 63) ≤ r.seek := by omega
      have hsk2' : r.seek < 2 ^ 63 := by omega
      rw [applyGo, recsBytes_cons, List.append_assoc, serializeRecord_split,
        readExact_append _ _ 24 (by rfl)]
      dsimp only
      rw [parseU64_u64le _ _ hd64, drop8_u64le, parseU64_u64le _ _ he64,
        drop16_hdr, parseI64_i64le_nil _ hsk1' hsk2']
      rw [if_neg (show ¬ (r.diff = 0 ∧ r.extra = 0 ∧ r.seek = 0) from hnz)]
      rw [readExact_append _ _ _ hdpl]
      dsimp only
      rw [readOld, if_pos ⟨hcur, by omega⟩]
      dsimp only
      rw [readExact_append _ _ _ hepl]
      dsimp only
      rw [seekCur, if_neg (by omega)]
      dsimp only
      rw [ih f tail (by simp only [List.length_cons] at hf; omega)]
      dsimp only
      have hoblen : ((old.drop cur.toNat).take r.diff).length = r.diff := by
        simp only [List.length_take, List.length_drop]
        omega
      have hzwlen : (List.zipWith (· + ·) ((old.drop cur.toNat).take r.diff)
          r.diffPayload).length = r.diff := by
        rw [List.length_zipWith, hoblen, hdpl]
        omega
      have hLlen : (List.zipWith (· + ·) ((old.drop cur.toNat).take r.diff)
          r.diffPayload ++ r.extraPayload).length = r.diff + r.extra := by
        rw [List.length_append, hzwlen, hepl]
      have hbig := eq_drop_of_pointwise new written
        (List.zipWith (· + ·) ((old.drop cur.toNat).take r.diff) r.diffPayload ++
          r.extraPayload) (by omega) ?_
      · rw [hLlen] at hbig
        rw [show written + r.diff + r.extra =
          written + (r.diff + r.extra) from by omega, hbig]
      · intro i hi
        rw [hLlen] at hi
        by_cases hcase : i < r.diff
        · rw [getD_append_left _ _ _ (by omega)]
          rw [getD_zipWith_add _ _ _ (by omega) (by omega)]
          rw [getD_take _ _ _ hcase, getD_drop]
          exact hdiffp i hcase
        · rw [getD_append_right _ _ _ (by omega), hzwlen]
          have := hextrap (i - r.diff) (by omega)
          rw [show written + r.diff + (i - r.diff) = written + i from by omega] at this
          exact this


/-! ## Top-level glue: `generate` meets `RecsOk`, `apply` inverts it -/

theorem stateInv_init (old new : List Byte) : StateInv old new 0 0 0 0 0 0 := by
  refine ⟨rfl, le_refl 0, by exact_mod_cast Nat.zero_le old.length,
    le_refl 0, ?_, ?_, ?_⟩ <;> omega

/-- A successful `generate` declares `|new|` as the size and produces a
record list valid for reconstruction from cursor 0, output position 0. -/
theorem generate_recsOk (old new : List Byte) (fuel : Nat) (p : SubPatch)
    (hgen : generate old new fuel = some (.ok p)) :
    p.newSize = new.length ∧ RecsOk old new 0 0 p.records := by
  rw [generate] at hgen
  split at hgen
  · exact absurd hgen (by simp)
  · rcases hout : outerGo old new fuel 0 0 0 0 0 0 with _ | er
    · rw [hout] at hgen
      exact absurd hgen (by simp)
    · rw [hout] at hgen
      cases er with
      | error e => exact absurd hgen (by simp)
      | ok recs =>
        simp only [Option.some.injEq, Except.ok.injEq] at hgen
        have hro := outerGo_spec old new fuel 0 0 0 0 0 0 recs
          (stateInv_init old new) hout
        rw [← hgen]
        exact ⟨rfl, hro⟩

theorem apply_subpatch (old new : List Byte)
    (hO : old.length < 2 ^ 63) (hN : new.length < 2 ^ 64)
    (recs : List EntryRec) (hro : RecsOk old new 0 0 recs) :
    apply old (serializeSubPatch ⟨new.length, recs⟩) = .ok new := by
  rw [apply, serializeSubPatch]
  dsimp only
  rw [readExact_append _ _ 16 (by rfl)]
  dsimp only
  have htk : (DDELTA_MAGIC ++ u64le new.length).take 8 = DDELTA_MAGIC := by
    rw [show (8 : Nat) = (DDELTA_MAGIC : List Byte).length from rfl, List.take_left]
  have hdp8 : (DDELTA_MAGIC ++ u64le new.length).drop 8 = u64le new.length := by
    rw [show (8 : Nat) = (DDELTA_MAGIC : List Byte).length from rfl, List.drop_left]
  rw [htk, hdp8, parseU64_u64le_nil _ hN, applyWithHeader,
    if_neg (fun hc => hc rfl)]
  rw [show recsBytes recs = recsBytes recs ++ [] from (List.append_nil _).symm]
  have happ := applyGo_spec old new hO hN recs 0 0 hro
    ((recsBytes recs ++ []).length + 1) []
    (by simp only [List.append_nil]; have := length_le_recsBytes recs; omega)
  rw [happ, List.drop_zero]

/-! ## Claim C1: the generator/applier round trip -/

/-- C1: for all byte sequences `O`, `N` with `|O|, |N| < 2^31`, applying
the patch produced by `generate(O, N)` to `O` using `apply`
reconstructs exactly `N` (stated for every fuel at which the embedded
outer loop terminates; the byte stream applied is the serialization of
the sub-patch `generate` writes). -/
theorem generate_apply_roundtrip (old new : List Byte) (fuel : Nat) (p : SubPatch)
    (hO : old.length < 2 ^ 31) (hN : new.length < 2 ^ 31)
    (hgen : generate old new fuel = some (.ok p)) :
    apply old (serializeSubPatch p) = .ok new := by
  obtain ⟨hsz, hro⟩ := generate_recsOk old new fuel p hgen
  obtain ⟨ns, rs⟩ := p
  simp only at hsz hro
  subst hsz
  exact apply_subpatch old new (by omega) (by omega) rs hro

theorem generate_apply_roundtrip_witness :
    generate [] [5] 2 =
      some (.ok ⟨1, [⟨0, 1, 0, [], [5]⟩, endingRecord]⟩) ∧
    apply [] (serializeSubPatch ⟨1, [⟨0, 1, 0, [], [5]⟩, endingRecord]⟩) =
      .ok [5] :=
  ⟨by decide,
   generate_apply_roundtrip [] [5] 2 ⟨1, [⟨0, 1, 0, [], [5]⟩, endingRecord]⟩
     (by decide) (by decide) (by decide)⟩

/-! ## Claim C5: the size invariant -/

theorem recsOk_sum (old new : List Byte) :
    ∀ (cur : Int) (written : Nat) (recs : List EntryRec),
      RecsOk old new cur written recs →
      written + (recs.map fun r => r.diff + r.extra).sum = new.length := by
  intro cur written recs hro
  induction hro with
  | term cur => simp [endingRecord]
  | cons cur written r rest _ _ _ _ _ _ _ _ _ _ _ ih =>
    simp only [List.map_cons, List.sum_cons]
    omega

/-- C5: for every sub-patch emitted by `generate(O, N)`, the sum over
all entry records of `diff + extra` equals the `new_file_size` declared
in the patch header, which is `|N|`. -/
theorem generate_size_sum (old new : List Byte) (fuel : Nat) (p : SubPatch)
    (hgen : generate old new fuel = some (.ok p)) :
    (p.records.map fun r => r.diff + r.extra).sum = p.newSize ∧
    p.newSize = new.length := by
  obtain ⟨hsz, hro⟩ := generate_recsOk old new fuel p hgen
  have := recsOk_sum old new 0 0 p.records hro
  exact ⟨by omega, hsz⟩

theorem generate_size_sum_witness :
    ((⟨3, [⟨2, 1, -2, [0, 0], [4]⟩, endingRecord]⟩ : SubPatch).records.map
        fun r => r.diff + r.extra).sum =
      (⟨3, [⟨2, 1, -2, [0, 0], [4]⟩, endingRecord]⟩ : SubPatch).newSize ∧
    (⟨3, [⟨2, 1, -2, [0, 0], [4]⟩, endingRecord]⟩ : SubPatch).newSize =
      ([1, 2, 4] : List Byte).length :=
  generate_size_sum [1, 2, 3] [1, 2, 4] 5 _ (by decide)

/-! ## Claim C6: terminator uniqueness -/

theorem recsOk_ne_nil (old new : List Byte) (cur : Int) (written : Nat)
    (recs : List EntryRec) (h : RecsOk old new cur written recs) : recs ≠ [] := by
  cases h <;> simp

theorem recsOk_structure (old new : List Byte) :
    ∀ (cur : Int) (written : Nat) (recs : List EntryRec),
      RecsOk old new cur written recs →
      recs.getLast? = some endingRecord ∧
      (∀ r ∈ recs.dropLast, ¬ isZeroRec r) ∧
      recs.countP (fun r => decide (isZeroRec r)) = 1 := by
  intro cur written recs hro
  induction hro with
  | term cur => exact ⟨rfl, by simp, by decide⟩
  | cons cur written r rest hnz _ _ _ _ _ _ _ _ _ htail ih =>
    obtain ⟨ih1, ih2, ih3⟩ := ih
    have hne : rest ≠ [] := recsOk_ne_nil old new _ _ _ htail
    refine ⟨?_, ?_, ?_⟩
    · cases rest with
      | nil => exact absurd rfl hne
      | cons b t => rw [List.getLast?_cons_cons]; exact ih1
    · intro x hx
      rw [List.dropLast_cons_of_ne_nil hne] at hx
      rcases List.mem_cons.mp hx with hh | hh
      · rw [hh]; exact hnz
      · exact ih2 x hh
    · rw [List.countP_cons, if_neg (by simpa using hnz)]
      simpa using ih3

/-- C6: every sub-patch emitted by the generator contains exactly one
all-zero entry record, it is the last record, and no all-zero entry
precedes the terminator. -/
theorem generate_terminator_unique (old new : List Byte) (fuel : Nat) (p : SubPatch)
    (hgen : generate old new fuel = some (.ok p)) :
    p.records.getLast? = some endingRecord ∧
    isZeroRec endingRecord ∧
    (∀ r ∈ p.records.dropLast, ¬ isZeroRec r) ∧
    p.records.countP (fun r => decide (isZeroRec r)) = 1 := by
  obtain ⟨-, hro⟩ := generate_recsOk old new fuel p hgen
  obtain ⟨h1, h2, h3⟩ := recsOk_structure old new 0 0 p.records hro
  exact ⟨h1, ⟨rfl, rfl, rfl⟩, h2, h3⟩

theorem generate_terminator_unique_witness :
    (⟨1, [⟨0, 1, 0, [], [7]⟩, endingRecord]⟩ : SubPatch).records.getLast? =
      some endingRecord ∧
    isZeroRec endingRecord ∧
    (∀ r ∈ (⟨1, [⟨0, 1, 0, [], [7]⟩, endingRecord]⟩ : SubPatch).records.dropLast,
      ¬ isZeroRec r) ∧
    (⟨1, [⟨0, 1, 0, [], [7]⟩, endingRecord]⟩ : SubPatch).records.countP
      (fun r => decide (isZeroRec r)) = 1 :=
  generate_terminator_unique [] [7] 2 _ (by decide)


end DDelta
